import Mathlib

/-!
Verification of the ltjson JSON engine (C sources under src/) against its
natural-language specification.  The development shallowly embeds the parts of
the code the frozen claims C1..C10 are about:

* the incremental parser state machine of src/ltparse.c (ltjson_parse) together
  with the tokenizer / continuation buffer (store_strnum, spec section 4.D),
* the lexeme decoders convert_to_number / convert_to_logic (src/ltjson.c) and
  unescape_string with its helpers (src/lttext.c),
* the bottom-up merge sort ltjson_sort and ltjson_promote (src/ltsort.c),
* the path resolver path_tokenise / path_getobject (src/ltpath.c),
* the name-interning hash nhash_insert / nhash_lookup (src/lthash.c),
* the mutation entry add_new_node (src/ltutils.c) with an allocation oracle,
* the string store sstore_nadd (src/lttext.c),
* the trailing-byte count of the root close in src/lzjson.c (lzjson_parse).

Bytes are modelled as natural numbers below 256; machine integers as Int with
the explicit 64-bit range of the C `long`; C strings as NUL-free byte lists.
Fallible C code returns Option.  Heap pointers are modelled as store indices
where their identity matters (the name hash), and malloc failure by an explicit
oracle where a claim is about out-of-memory behaviour.
-/

set_option maxRecDepth 8000

namespace Ltjson

/-- Bytes of the input text and of stored strings (always < 256, NUL-free). -/
abbrev Byte := Nat

/-- C `isspace` in the default locale: space, \t, \n, \v, \f, \r. -/
def isspaceB (c : Byte) : Bool := c = 32 || (9 ≤ c && c ≤ 13)

/-- C `isdigit`. -/
def isdigitB (c : Byte) : Bool := 48 ≤ c && c ≤ 57

/-- C `isalpha` in the default locale (ASCII letters only). -/
def isalphaB (c : Byte) : Bool := (65 ≤ c && c ≤ 90) || (97 ≤ c && c ≤ 122)

/-- C `isalnum` in the default locale. -/
def isalnumB (c : Byte) : Bool := isalphaB c || isdigitB c

/-- C `tolower` for ASCII. -/
def tolowerB (c : Byte) : Byte := if 65 ≤ c && c ≤ 90 then c + 32 else c

/-- Byte list of an ASCII string literal (convenience for concrete inputs). -/
def bs (s : String) : List Byte := s.toList.map Char.toNat

/-- Values a finished tree node can hold (the discriminated union of
`ltjson_node_t.val` together with the `ntype` tag, src/ltjson.h lines 15-50).
The C double is modelled as the exact rational `strtod` was given. -/
inductive JVal where
  | null : JVal
  | bool (b : Bool) : JVal
  | int (n : Int) : JVal
  | double (q : ℚ) : JVal
  | str (s : List Byte) : JVal
deriving DecidableEq, Repr

/-- A finished JSON tree node: scalar, object or array.  `name` is `none` for
array elements and for the root, `some bytes` for object members (the
invariants of spec section 3).  Basenodes are arena metadata and never appear
in a tree, so they have no constructor here. -/
inductive JNode where
  | scalar (name : Option (List Byte)) (v : JVal) : JNode
  | obj (name : Option (List Byte)) (children : List JNode) : JNode
  | arr (name : Option (List Byte)) (children : List JNode) : JNode

/-- Numeric value of a digit list, most significant first. -/
def digitsVal (ds : List Byte) : Nat := ds.foldl (fun a c => 10 * a + (c - 48)) 0

/-- Smallest C `long` on the 64-bit targets the code is built for. -/
def int64_min : Int := -(2 ^ 63)

/-- Largest C `long` on the 64-bit targets the code is built for. -/
def int64_max : Int := 2 ^ 63 - 1

/-- Model of `strtol(numstr, &endptr, 10)` as used by convert_to_number
(src/ltjson.c lines 627-633): the call is accepted when `errno` stays 0 and
`*endptr` is NUL, i.e. when the whole lexeme is an optionally signed digit
string whose value fits a signed 64-bit `long`. -/
def strtol_ok (s : List Byte) : Option Int :=
  let sgn : Bool := s.headD 0 = 45
  let ds : List Byte := if s.headD 0 = 45 || s.headD 0 = 43 then s.tail else s
  if ds = [] then none
  else if !ds.all isdigitB then none
  else
    let v : Int := if sgn then -(digitsVal ds : Int) else (digitsVal ds : Int)
    if v < int64_min || int64_max < v then none else some v

/-- Split a byte list at the first non-digit. -/
def spanDigits (l : List Byte) : List Byte × List Byte :=
  (l.takeWhile isdigitB, l.dropWhile isdigitB)

/-- Exponent part of a C double literal: `(e|E) [sign] digits`, which must
consume the rest of the lexeme (convert_to_number checks `*endptr`). -/
def strtod_exp (l : List Byte) : Option Int :=
  match l with
  | [] => some 0
  | m :: r =>
    if m = 101 || m = 69 then
      let esgn : Bool := r.headD 0 = 45
      let eds : List Byte := if r.headD 0 = 45 || r.headD 0 = 43 then r.tail else r
      if eds = [] then none
      else if !eds.all isdigitB then none
      else some (if esgn then -(digitsVal eds : Int) else (digitsVal eds : Int))
    else none

/-- Model of `strtod(numstr, &endptr)` as used by convert_to_number
(src/ltjson.c lines 617-625): accepted when the whole lexeme matches the C
decimal grammar `[sign] (digits [. digits] | . digits) [(e|E) [sign] digits]`,
with the exact rational value.  Overflow and underflow (`errno == ERANGE`) are
not modelled; every lexeme a claim decides on is far inside double range. -/
def strtod_ok (s : List Byte) : Option ℚ :=
  let neg : Bool := s.headD 0 = 45
  let l : List Byte := if s.headD 0 = 45 || s.headD 0 = 43 then s.tail else s
  let ipr := spanDigits l
  let ip := ipr.1
  let hasdot : Bool := ipr.2.headD 0 = 46
  let fpr := spanDigits (if hasdot then ipr.2.tail else ipr.2)
  let fp := if hasdot then fpr.1 else []
  let rest := if hasdot then fpr.2 else ipr.2
  if ip = [] && fp = [] then none
  else
    match strtod_exp rest with
    | none => none
    | some e =>
      let mag : ℚ := ((digitsVal ip : ℚ) + (digitsVal fp : ℚ) / (10 : ℚ) ^ fp.length)
                       * (10 : ℚ) ^ e
      some (if neg then -mag else mag)

/-- Result of convert_to_number: the node becomes an INTEGER or a FLOAT. -/
inductive NumVal where
  | int (n : Int) : NumVal
  | double (q : ℚ) : NumVal
deriving DecidableEq, Repr

/-- Shallow embedding of convert_to_number (src/ltjson.c lines 602-637).
The two leading-zero guards read `numstr[0..2]`; reading past the end of the
lexeme yields the NUL terminator, modelled by `getD _ 0`.  `strpbrk(numstr,
"eE.")` selects the `strtod` branch, otherwise `strtol` is used.  `none` is
the `-EINVAL` conversion error. -/
def convert_to_number (numstr : List Byte) : Option NumVal :=
  if numstr.getD 0 0 = 45 && numstr.getD 1 0 = 48 && !(numstr.getD 2 0 = 46) then
    none
  else if numstr.getD 0 0 = 48 && !(numstr.getD 1 0 = 46) && !(numstr.getD 1 0 = 0) then
    none
  else if numstr.any (fun c => c = 101 || c = 69 || c = 46) then
    (strtod_ok numstr).map .double
  else
    (strtol_ok numstr).map .int

/-- Shallow embedding of convert_to_logic (src/ltjson.c lines 652-677) applied
to the literal body (the `!` tag byte of the work buffer is implicit in the
embedding of the tokenizer).  `strcasecmp` compares case-insensitively. -/
def convert_to_logic (l : List Byte) : Option JVal :=
  let low := l.map tolowerB
  if low = bs "null" then some .null
  else if low = bs "true" then some (.bool true)
  else if low = bs "false" then some (.bool false)
  else none

/-- Shallow embedding of hex_to_dec (src/lttext.c lines 299-311). -/
def hex_to_dec (c : Byte) : Option Nat :=
  if isdigitB c then some (c - 48)
  else if (97 ≤ c && c ≤ 102) || (65 ≤ c && c ≤ 70) then some (tolowerB c - 97 + 10)
  else none

/-- Shallow embedding of string_to_codepoint (src/lttext.c lines 323-339):
four hex bytes to a value in 0x0000..0xFFFF. -/
def string_to_codepoint (a b c d : Byte) : Option Nat :=
  match hex_to_dec a, hex_to_dec b, hex_to_dec c, hex_to_dec d with
  | some x, some y, some z, some w => some (x * 0x1000 + y * 0x100 + z * 0x10 + w)
  | _, _, _, _ => none

/-- Shallow embedding of codepoint_to_utf8 (src/lttext.c lines 377-417): the
Pike/Thompson table emits 1 to 3 bytes for code points up to 0xFFFF; zero and
out-of-table values are errors. -/
def codepoint_to_utf8 (c : Nat) : Option (List Byte) :=
  if c = 0 then none
  else if c ≤ 0x7F then some [c]
  else if c ≤ 0x7FF then some [0xC0 + c / 64, 0x80 + c % 64]
  else if c ≤ 0xFFFF then some [0xE0 + c / 4096, 0x80 + c / 64 % 64, 0x80 + c % 64]
  else none

/-- Shallow embedding of unescape_string (src/lttext.c lines 431-511) on the
string body: ordinary bytes pass through, the seven simple escapes decode, and
`\uXXXX` decodes through string_to_codepoint and codepoint_to_utf8 (the code
rejects a zero or malformed code point).  `none` is the sequence error. -/
def unescape_string : List Byte → Option (List Byte)
  | [] => some []
  | 92 :: rest =>
    match rest with
    | [] => none
    | 117 :: r =>
      match r with
      | h1 :: h2 :: h3 :: h4 :: r2 =>
        match string_to_codepoint h1 h2 h3 h4 with
        | none => none
        | some cp =>
          if cp = 0 then none
          else
            match codepoint_to_utf8 cp, unescape_string r2 with
            | some u, some tail => some (u ++ tail)
            | _, _ => none
      | _ => none
    | e :: r =>
      let dec : Option Byte :=
        if e = 92 then some 92
        else if e = 47 then some 47
        else if e = 34 then some 34
        else if e = 116 then some 9
        else if e = 102 then some 12
        else if e = 114 then some 13
        else if e = 110 then some 10
        else none
      match dec with
      | none => none
      | some b => (unescape_string r).map (b :: ·)
  | c :: rest => (unescape_string rest).map (c :: ·)

/-! ## The incremental parser state machine

The driver loop of ltjson_parse (src/ltparse.c lines 106-412) together with
the tokenizer store_strnum is resumable at every byte: all state that
survives a suspension lives in the context (the cursor node `open`, the node
flags, and the work buffer flagged by `incomplete`).  The embedding therefore
is a byte-at-a-time step function on an explicit machine state; one C call
`ltjson_parse(&tree, chunk, 0)` is the fold of that step over the chunk's
bytes.  The 2016 generation's main file (create_tree, get_new_node,
begin_tree, store_strnum and process_json_alnum of that generation) is not
under src/ — only its driver (src/ltparse.c), its helpers (src/lttext.c,
src/lthash.c) and the 2015 variants (src/ltjson.c) are — so those parts are
modelled from spec sections 4.C, 4.D and 4.E, corroborated by the 2015
store_strnum / process_json_alnum in src/ltjson.c lines 435-790.

State mapping:
* a `Frame` is an open container (a node whose OPENOA flag is set somewhere on
  the cursor's ancestor chain): its kind, its name, and its already finished
  children in reverse order;
* `Cur.opened` is the cursor sitting on the innermost open container with no
  subnode yet (nflags = OPENOA, val.subnode = NULL);
* `Cur.empty name colon` is an EMPTY cursor node, carrying its name if already
  stored and the EXPECT_COLON flag (nflags = COLON);
* `Cur.filled n` is a cursor on a completed value (scalar or closed
  container);
* `Tok` is the work buffer with its kind tag and, for strings, the previous
  byte (spec 4.D recovers it as the byte before the terminator); the leading
  `"` or `!` tag byte of the C buffer is implicit in the constructor;
* `PSt.preInit` is a context on which no non-space byte has arrived yet
  (ltjson_parse returns EAGAIN on all-space text before creating the tree).
-/

/-- Sequence errors of the parser (the lasterr descriptors, ltlocal.h). -/
inductive PErr where
  | beginTree | noColon | unexpColon | leadComma | unexpOA | objNoName
  | mmCloseObj | mmCloseArr | badClosure | unexpStr | unexpNum | unexpTxt
  | badText | badEscape | badNumber | badLogic | internal
deriving DecidableEq, Repr

/-- An open container on the cursor's ancestor chain. -/
structure Frame where
  isObj : Bool
  name : Option (List Byte)
  rev : List JNode

/-- The parse cursor (the context's `open` node together with its nflags). -/
inductive Cur where
  | opened : Cur
  | empty (name : Option (List Byte)) (colon : Bool) : Cur
  | filled (n : JNode) : Cur

/-- The work buffer mid-lexeme (`incomplete` set), spec section 4.D. -/
inductive Tok where
  | str (acc : List Byte) (prev : Byte) : Tok
  | num (acc : List Byte) : Tok
  | lit (acc : List Byte) : Tok

/-- Machine state persisted in the context between parse calls. -/
inductive PSt where
  | preInit : PSt
  | run (stack : List Frame) (cur : Cur) (tok : Option Tok) : PSt

/-- Result of one byte step. -/
inductive StepRes where
  | cont (st : PSt) : StepRes
  | closed (t : JNode) : StepRes
  | fail (e : PErr) : StepRes

/-- Close of an open container: the `}` / `]` branch of the driver loop
(src/ltparse.c lines 330-372) after the walk up to the open container.
`rev` already holds all children in reverse order. -/
def closeFrame (f : Frame) (rev : List JNode) (rest : List Frame) (c : Byte) : StepRes :=
  if c = 125 && !f.isObj then .fail .mmCloseObj
  else if c = 93 && f.isObj then .fail .mmCloseArr
  else
    let node := if f.isObj then JNode.obj f.name rev.reverse else JNode.arr f.name rev.reverse
    match rest with
    | [] => .closed node
    | f' :: rest' => .cont (.run (f' :: rest') (.filled node) none)

/-- Placement of a finished string lexeme (spec 4.E step 5): a string on an
EMPTY cursor whose ancestor is an ARRAY, or whose name is already set, is a
value; otherwise it is the member name and EXPECT_COLON is raised. -/
def place_string (stack : List Frame) (name : Option (List Byte)) (dec : List Byte) : Cur :=
  match stack with
  | f :: _ =>
    if !f.isObj || !(name = none) then .filled (.scalar name (.str dec))
    else .empty (some dec) true
  | [] => .filled (.scalar name (.str dec))

/-- JVal of a converted number. -/
def JVal.ofNum : NumVal → JVal
  | .int n => .int n
  | .double q => .double q

/-- Dispatch of the driver loop on one non-space byte with no work buffer
active, after the open-container descent (src/ltparse.c lines 244-399). -/
def ltjson_dispatch2 (stack : List Frame) (cur : Cur) (c : Byte) : StepRes :=
  match cur with
  | .empty name true =>
    -- the cursor expects a colon next (lines 244-257)
    if c = 58 then .cont (.run stack (.empty name false) none) else .fail .noColon
  | _ =>
    if c = 58 then .fail .unexpColon
    else if c = 44 then
      -- separator: the cursor must not be EMPTY; new sibling (lines 270-296)
      match cur, stack with
      | .empty _ _, _ => .fail .leadComma
      | .filled n, f :: rest =>
        .cont (.run ({ f with rev := n :: f.rev } :: rest) (.empty none false) none)
      | _, _ => .fail .internal
    else if c = 123 || c = 91 then
      -- open container: cursor must be EMPTY; an object member needs its
      -- name already (lines 299-327)
      match cur, stack with
      | .empty name false, f :: rest =>
        if name = none && f.isObj then .fail .objNoName
        else .cont (.run (⟨c = 123, name, []⟩ :: f :: rest) .opened none)
      | .empty _ _, [] => .fail .internal
      | _, _ => .fail .unexpOA
    else if c = 125 || c = 93 then
      -- close container (lines 330-372)
      match cur, stack with
      | .empty _ _, _ => .fail .badClosure
      | .filled n, f :: rest => closeFrame f (n :: f.rev) rest c
      | .opened, f :: rest => closeFrame f f.rev rest c
      | _, [] => .fail .internal
    else if c = 34 then
      -- string lexeme begins: cursor must be EMPTY (process_json_alnum,
      -- src/ltjson.c lines 708-716); the opening quote is consumed
      match cur with
      | .empty name false => .cont (.run stack (.empty name false) (some (.str [] 34)))
      | _ => .fail .unexpStr
    else if c = 45 || isdigitB c then
      -- number lexeme begins: cursor must be EMPTY and, under an OBJECT,
      -- already named (src/ltjson.c lines 744-750, spec 4.E step 5)
      match cur, stack with
      | .empty name false, f :: _ =>
        if f.isObj && name = none then .fail .unexpNum
        else .cont (.run stack (.empty name false) (some (.num [c])))
      | _, _ => .fail .unexpNum
    else if isalphaB c then
      -- literal lexeme begins (src/ltjson.c lines 766-770)
      match cur, stack with
      | .empty name false, f :: _ =>
        if f.isObj && name = none then .fail .unexpTxt
        else .cont (.run stack (.empty name false) (some (.lit [c])))
      | _, _ => .fail .unexpTxt
    else
      -- random unquoted text (line 394-398)
      .fail .badText

/-- One driver-loop iteration on a non-space byte when no lexeme is pending:
an open container that is not being closed first gets a fresh EMPTY subnode
and the cursor descends to it, in the same iteration (src/ltparse.c lines
221-241); then the byte is dispatched. -/
def ltjson_dispatch (stack : List Frame) (cur : Cur) (c : Byte) : StepRes :=
  match cur with
  | .opened =>
    if c = 125 || c = 93 then ltjson_dispatch2 stack .opened c
    else ltjson_dispatch2 stack (.empty none false) c
  | _ => ltjson_dispatch2 stack cur c

/-- One byte with no work buffer active: whitespace is skipped by the driver
(skip_space), anything else is dispatched. -/
def ltjson_step_notok (stack : List Frame) (cur : Cur) (c : Byte) : StepRes :=
  if isspaceB c then .cont (.run stack cur none)
  else ltjson_dispatch stack cur c

/-- One byte given to the tokenizer (store_strnum, spec 4.D; the 2015 variant
is src/ltjson.c lines 435-588): strings end at an unescaped quote, which is
consumed; numbers accept `[0-9+-.eE]` and literals `[A-Za-z]`, and their
terminating byte is not consumed — after conversion and placement it goes
back through the driver dispatch (store_strnum leaves `*textp` on it). -/
def store_strnum_step (stack : List Frame) (cur : Cur) (tok : Tok) (c : Byte) : StepRes :=
  match tok with
  | .str acc prev =>
    if c = 34 && !(prev = 92) then
      match unescape_string acc with
      | none => .fail .badEscape
      | some dec =>
        match cur with
        | .empty name false => .cont (.run stack (place_string stack name dec) none)
        | _ => .fail .internal
    else .cont (.run stack cur (some (.str (acc ++ [c]) c)))
  | .num acc =>
    if isdigitB c || c = 45 || c = 43 || c = 101 || c = 69 || c = 46 then
      .cont (.run stack cur (some (.num (acc ++ [c]))))
    else
      match convert_to_number acc with
      | none => .fail .badNumber
      | some v =>
        match cur with
        | .empty name false => ltjson_step_notok stack (.filled (.scalar name (.ofNum v))) c
        | _ => .fail .internal
  | .lit acc =>
    if isalphaB c then .cont (.run stack cur (some (.lit (acc ++ [c]))))
    else
      match convert_to_logic acc with
      | none => .fail .badLogic
      | some v =>
        match cur with
        | .empty name false => ltjson_step_notok stack (.filled (.scalar name v)) c
        | _ => .fail .internal

/-- One byte of input to the parser machine. -/
def ltjson_parse_step : PSt → Byte → StepRes
  | .preInit, c =>
    -- before the tree begins: skip space, then the root must open with
    -- an object or array (begin_tree; src/ltparse.c lines 171-214)
    if isspaceB c then .cont .preInit
    else if c = 123 then .cont (.run [⟨true, none, []⟩] .opened none)
    else if c = 91 then .cont (.run [⟨false, none, []⟩] .opened none)
    else .fail .beginTree
  | .run stack cur none, c => ltjson_step_notok stack cur c
  | .run stack cur (some tok), c => store_strnum_step stack cur tok c

/-- Result of one parse call: need-more (EAGAIN, state saved in the context),
a closed tree (return 1), or a sequence error (EILSEQ). -/
inductive RunRes where
  | again (st : PSt) : RunRes
  | closed (t : JNode) : RunRes
  | fail (e : PErr) : RunRes

/-- Whether a call reported need-more. -/
def RunRes.isAgain : RunRes → Bool
  | .again _ => true
  | _ => false

/-- One call ltjson_parse(&tree, chunk, usehash): fold the byte step over the
chunk; exhausting the chunk with the tree still open saves the cursor and
returns EAGAIN; a root close returns success immediately (src/ltparse.c line
368-369) and an error aborts the call. -/
def ltjson_parse : PSt → List Byte → RunRes
  | st, [] => .again st
  | st, c :: rest =>
    match ltjson_parse_step st c with
    | .cont st' => ltjson_parse st' rest
    | .closed t => .closed t
    | .fail e => .fail e

/-- Successive parse calls on the same context, one chunk per call, stopping
at the first call that does not report need-more. -/
def ltjson_parse_calls : PSt → List (List Byte) → RunRes
  | st, [] => .again st
  | st, b :: rest =>
    match ltjson_parse st b with
    | .again st' => ltjson_parse_calls st' rest
    | r => r

/-- Suspension is exact: parsing `xs ++ ys` behaves like parsing `xs`, and if
that only ran out of input, continuing from the saved state with `ys`. -/
theorem ltjson_parse_append (st : PSt) (xs ys : List Byte) :
    ltjson_parse st (xs ++ ys) =
      match ltjson_parse st xs with
      | .again st' => ltjson_parse st' ys
      | r => r := by
  induction xs generalizing st with
  | nil => simp [ltjson_parse]
  | cons c rest ih =>
    simp only [List.cons_append, ltjson_parse]
    cases ltjson_parse_step st c <;> simp [ih]

/-- Feeding chunks call by call equals one call on their concatenation (as
long as the run is taken up to its first non-EAGAIN result). -/
theorem ltjson_parse_calls_flatten (st : PSt) (chunks : List (List Byte)) :
    ltjson_parse_calls st chunks = ltjson_parse st chunks.flatten := by
  induction chunks generalizing st with
  | nil => simp [ltjson_parse_calls, ltjson_parse]
  | cons b rest ih =>
    rw [List.flatten_cons, ltjson_parse_append, ltjson_parse_calls]
    cases ltjson_parse st b <;> simp [ih]

set_option linter.unusedVariables false in
/-- C1: chunk invariance of incremental parsing.  If the single-call parse of
`chunks.flatten` yields a closed tree `t`, and every intermediate call of the
chunked run reports need-more (the claim's side condition - without it a
chunk past the root close would recycle the context), then feeding the chunks
to successive parse calls on the same context yields the identical closed
tree, node for node: types, names, values, and child and sibling order, since
`JNode` equality is structural. -/
theorem C1_chunk_invariance (chunks : List (List Byte)) (t : JNode)
    (hone : ltjson_parse .preInit chunks.flatten = .closed t)
    (hmid : ∀ i : Nat, i + 1 < chunks.length →
      (ltjson_parse_calls .preInit (chunks.take (i + 1))).isAgain = true) :
    ltjson_parse_calls .preInit chunks = .closed t := by
  rw [ltjson_parse_calls_flatten]
  exact hone

/-- Concrete split of `{"a":[1,true,-25],"s":"é"}` into three chunks, cutting
inside the literal `true`, inside the number `-25` and inside the `é`
escape. -/
def c1_chunks : List (List Byte) :=
  [bs "\x7b\"a\":[1,tru", bs "e,-2", bs "5],\"s\":\"\\u00", bs "e9\"\x7d"]

/-- The closed tree both runs produce: the escape decodes to 0xC3 0xA9. -/
def c1_tree : JNode :=
  .obj none
    [.arr (some (bs "a"))
       [.scalar none (.int 1), .scalar none (.bool true), .scalar none (.int (-25))],
     .scalar (some (bs "s")) (.str [0xC3, 0xA9])]

/-- Witness for C1 at a concrete three-chunk split: both hypotheses hold and
the chunked run produces the same closed tree as the single call. -/
theorem C1_chunk_invariance_witness :
    ltjson_parse .preInit c1_chunks.flatten = .closed c1_tree ∧
    ltjson_parse_calls .preInit c1_chunks = .closed c1_tree := by
  refine ⟨by rfl, C1_chunk_invariance c1_chunks c1_tree (by rfl) ?_⟩
  intro i hi
  match i with
  | 0 => rfl
  | 1 => rfl
  | 2 => rfl
  | n + 3 => exact absurd hi (by simp [c1_chunks])

/-! ## C5: the number decoder's boundary behaviour -/

/-- Acceptance by strtol implies the value fits the signed 64-bit range
(out-of-range sets errno = ERANGE and convert_to_number rejects). -/
theorem strtol_ok_range (s : List Byte) (v : Int) (hv : strtol_ok s = some v) :
    int64_min ≤ v ∧ v ≤ int64_max := by
  simp only [strtol_ok] at hv
  split_ifs at hv with h1 h2 h3
  all_goals simp_all

/-- A lexeme free of `e`, `E` and `.` is either rejected or decoded as a
signed 64-bit integer in range. -/
theorem convert_integer_branch (s : List Byte)
    (h : s.any (fun c => c = 101 || c = 69 || c = 46) = false) :
    convert_to_number s = none ∨
      ∃ n : Int, convert_to_number s = some (.int n) ∧ int64_min ≤ n ∧ n ≤ int64_max := by
  unfold convert_to_number
  split
  · exact .inl rfl
  · split
    · exact .inl rfl
    · split
      · rename_i hc
        rw [h] at hc
        exact absurd hc (by simp)
      · rcases hq : strtol_ok s with _ | v
        · exact .inl (by simp)
        · exact .inr ⟨v, by simp, strtol_ok_range s v hq⟩

/-- C5 counterexample: the claim states that the lexeme `1.` is rejected, but
convert_to_number routes it through strtod, which accepts a trailing decimal
point (a nonempty digit sequence optionally containing a point is a valid C
subject sequence), so `1.` decodes to the float 1.0. -/
theorem C5_counterexample_trailing_point :
    convert_to_number (bs "1.") = some (.double 1) := by
  have h : bs "1." = [49, 46] := rfl
  rw [h]
  norm_num [convert_to_number, strtod_ok, spanDigits, strtod_exp, digitsVal, isdigitB]

/-- C5 (amended): the boundary list of the number decoder, with the one
correction the code forces: `-0` without fraction, `01`, `-01`, over-range
and garbage lexemes are rejected; `0`, `0.5`, `1e10` are accepted; `.5` never
reaches the decoder (the parser reports random-text); and `1.` is accepted as
the float 1.0 (strtod takes a trailing decimal point).  Lexemes free of `e`,
`E`, `.` go through strtol as signed 64-bit integers. -/
theorem C5_number_boundaries :
    convert_to_number (bs "-0") = none ∧
    convert_to_number (bs "0") = some (.int 0) ∧
    convert_to_number (bs "01") = none ∧
    convert_to_number (bs "-01") = none ∧
    convert_to_number (bs "0.5") = some (.double (1 / 2)) ∧
    convert_to_number (bs "1e10") = some (.double 10000000000) ∧
    convert_to_number (bs "1.") = some (.double 1) ∧
    ltjson_parse .preInit (bs "[.5]") = .fail .badText ∧
    convert_to_number (bs "9223372036854775808") = none ∧
    convert_to_number (bs "1+2") = none ∧
    (∀ s : List Byte, s.any (fun c => c = 101 || c = 69 || c = 46) = false →
      convert_to_number s = none ∨
        ∃ n : Int, convert_to_number s = some (.int n) ∧ int64_min ≤ n ∧ n ≤ int64_max) := by
  refine ⟨by decide, by decide, by decide, by decide, ?_, ?_,
    C5_counterexample_trailing_point, by rfl, by decide, by decide, convert_integer_branch⟩
  · have h : bs "0.5" = [48, 46, 53] := rfl
    rw [h]
    norm_num [convert_to_number, strtod_ok, spanDigits, strtod_exp, digitsVal, isdigitB]
  · have h : bs "1e10" = [49, 101, 49, 48] := rfl
    rw [h]
    norm_num [convert_to_number, strtod_ok, spanDigits, strtod_exp, digitsVal, isdigitB]
    rw [if_neg (by decide : ¬([49, 48] : List Byte) = [])]
    norm_num

/-- Witness instantiating the quantified part of C5 at the lexeme `7`. -/
theorem C5_number_boundaries_witness :
    (bs "7").any (fun c => c = 101 || c = 69 || c = 46) = false ∧
    (convert_to_number (bs "7") = none ∨
      ∃ n : Int, convert_to_number (bs "7") = some (.int n) ∧
        int64_min ≤ n ∧ n ≤ int64_max) :=
  ⟨by decide,
    C5_number_boundaries.2.2.2.2.2.2.2.2.2.2 (bs "7") (by decide)⟩

/-! ## C9: termination and the trailing-byte count -/

/-- Shallow embedding of the root-close epilogue of lzjson_parse
(src/lzjson.c lines 913-921 and 935-943): after the closing brace or bracket
the code strips leading whitespace and then counts every remaining byte up to
the NUL — whitespace between or after trailing bytes included. -/
def lz_trailing_count (rest : List Byte) : Nat :=
  (rest.dropWhile isspaceB).length

/-- C9 counterexample: with `x y` left after the root close, lzjson_parse
reports 3 (the inner space is counted), while the count of remaining
non-whitespace bytes the claim describes is 2. -/
theorem C9_counterexample_inner_space :
    lz_trailing_count (bs "x y") = 3 ∧
    ((bs "x y").filter (fun c => !isspaceB c)).length = 2 := by
  constructor <;> rfl

/-- C9 (amended): on a clean root close the parse reports success — the lt
generation (src/ltparse.c lines 366-369) returns 1, here the `.closed`
result, even with bytes left over; the lz generation returns the leftover
count, which equals the number of remaining bytes after skipping leading
whitespace (not the number of non-whitespace bytes), and is zero exactly when
only whitespace follows the close. -/
theorem C9_trailing_count :
    ltjson_parse .preInit (bs "[3]extra") = .closed (.arr none [.scalar none (.int 3)]) ∧
    (∀ rest : List Byte,
      lz_trailing_count rest = rest.length - (rest.takeWhile isspaceB).length) ∧
    (∀ rest : List Byte, (lz_trailing_count rest = 0 ↔ rest.all isspaceB = true)) := by
  refine ⟨by rfl, ?_, ?_⟩
  · intro rest
    have h := congrArg List.length (List.takeWhile_append_dropWhile isspaceB rest)
    rw [List.length_append] at h
    unfold lz_trailing_count
    omega
  · intro rest
    unfold lz_trailing_count
    rw [List.length_eq_zero, List.dropWhile_eq_nil_iff, List.all_eq_true]

/-- Witness instantiating the amended C9 count at concrete leftovers. -/
theorem C9_trailing_count_witness :
    lz_trailing_count (bs " ab") =
      (bs " ab").length - ((bs " ab").takeWhile isspaceB).length ∧
    (lz_trailing_count (bs "  ") = 0 ↔ (bs "  ").all isspaceB = true) :=
  ⟨C9_trailing_count.2.1 (bs " ab"), C9_trailing_count.2.2 (bs "  ")⟩

/-! ## C2: ltjson_sort, the bottom-up merge sort over the sibling list

ltjson_sort (src/ltsort.c lines 37-193) sorts the singly linked child list of
a container with Tatham's bottom-up merge sort: sublists of width `ksize` are
merged pairwise in one sweep, `ksize` doubles, and the loop stops after a
sweep that performed at most one merge.  The child list is embedded as a Lean
list; the compare callback as `cmp : α → α → Int` (the tree and user-argument
parameters of the C callback are captured in the closure). -/

/-- The element-extraction loop of one merge (src/ltsort.c lines 120-165):
while either run is nonempty, take from the other when one is exhausted, and
otherwise take from `p` exactly when `compar(p, q, ...) ≤ 0` — on ties `p`,
the earlier run, wins. -/
def tat_merge (cmp : α → α → Int) : List α → List α → List α
  | [], qs => qs
  | p :: ps, [] => p :: ps
  | p :: ps, q :: qs =>
    if cmp p q ≤ 0 then p :: tat_merge cmp ps (q :: qs)
    else q :: tat_merge cmp (p :: ps) qs

/-- One sweep of the outer loop at width `k` (src/ltsort.c lines 91-174):
`p` is the next `k` elements, `q` the `k` after them, their merge is appended
to the output and the sweep continues after them, counting one merge per
pair.  `k = 0` never occurs (ksize starts at 1 and doubles); the branch only
makes the recursion total. -/
def tat_pass (cmp : α → α → Int) (k : Nat) (l : List α) : List α × Nat :=
  if hl : l.isEmpty then ([], 0)
  else if hk : k = 0 then (l, 1)
  else
    let pr := tat_pass cmp k (l.drop (k + k))
    (tat_merge cmp (l.take k) ((l.drop k).take k) ++ pr.1, pr.2 + 1)
termination_by l.length
decreasing_by
  have hl' : 0 < l.length := by
    cases l with
    | nil => simp at hl
    | cons a rest => simp
  have : l.length - (k + k) < l.length := by omega
  simpa [List.length_drop] using this

/-- Merging `tat_merge` is `List.merge` with the boolean switch
`compar ≤ 0`. -/
theorem tat_merge_eq_merge (cmp : α → α → Int) :
    ∀ ps qs : List α, tat_merge cmp ps qs = List.merge ps qs (fun a b => cmp a b ≤ 0)
  | [], qs => by simp [tat_merge, List.merge]
  | p :: ps, [] => by simp [tat_merge, List.merge]
  | p :: ps, q :: qs => by
    rw [tat_merge, List.merge]
    by_cases h : cmp p q ≤ 0
    · rw [if_pos h, if_pos (by simpa using h), tat_merge_eq_merge cmp ps (q :: qs)]
    · rw [if_neg h, if_neg (by simpa using h), tat_merge_eq_merge cmp (p :: ps) qs]

/-- A sweep permutes the list. -/
theorem tat_merge_perm (cmp : α → α → Int) (ps qs : List α) :
    (tat_merge cmp ps qs).Perm (ps ++ qs) := by
  rw [tat_merge_eq_merge]
  exact List.merge_perm_append _

/-- Lengths are preserved by one merge. -/
theorem tat_merge_length (cmp : α → α → Int) (ps qs : List α) :
    (tat_merge cmp ps qs).length = ps.length + qs.length := by
  rw [tat_merge_eq_merge]
  exact List.length_merge _ _ _

/-- A sweep preserves the length. -/
theorem tat_pass_length (cmp : α → α → Int) (k : Nat) (l : List α) :
    (tat_pass cmp k l).1.length = l.length := by
  rw [tat_pass]
  by_cases hl : l.isEmpty
  · rw [dif_pos hl]
    cases l with
    | nil => rfl
    | cons a rest => simp at hl
  · rw [dif_neg hl]
    by_cases hk : k = 0
    · rw [dif_pos hk]
    · rw [dif_neg hk]
      have ih := tat_pass_length cmp k (l.drop (k + k))
      simp only [List.length_append, tat_merge_length, ih]
      simp only [List.length_take, List.length_drop]
      omega
termination_by l.length
decreasing_by
  have hl' : 0 < l.length := by
    cases l with
    | nil => simp at hl
    | cons a rest => simp
  have : l.length - (k + k) < l.length := by omega
  simpa [List.length_drop] using this

/-- A sweep that performed two or more merges saw more than `2k`
elements. -/
theorem tat_pass_merges (cmp : α → α → Int) (k : Nat) (l : List α)
    (hk : k ≠ 0) (h2 : 2 ≤ (tat_pass cmp k l).2) : k + k < l.length := by
  rw [tat_pass] at h2
  by_cases h : l.isEmpty
  · rw [dif_pos h] at h2
    omega
  · rw [dif_neg h, dif_neg hk] at h2
    simp only at h2
    have hrest : (tat_pass cmp k (l.drop (k + k))).2 ≠ 0 := by omega
    have hne : ¬(l.drop (k + k)).isEmpty := by
      intro hnil
      rw [tat_pass, dif_pos hnil] at hrest
      exact hrest rfl
    have : 0 < (l.drop (k + k)).length := by
      cases hd : l.drop (k + k) with
      | nil => rw [hd] at hne; simp at hne
      | cons a rest => simp
    rw [List.length_drop] at this
    omega

/-- A sweep that reported no merges saw the empty list. -/
theorem tat_pass_zero (cmp : α → α → Int) (k : Nat) (l : List α)
    (hm : (tat_pass cmp k l).2 = 0) : l = [] := by
  rw [tat_pass] at hm
  by_cases h : l.isEmpty
  · cases l with
    | nil => rfl
    | cons a rest => simp at h
  · rw [dif_neg h] at hm
    by_cases hk : k = 0
    · rw [dif_pos hk] at hm
      exact absurd hm (by simp)
    · rw [dif_neg hk] at hm
      simp at hm

/-- The outer while(1) loop (src/ltsort.c lines 84-191): one sweep at width
`k`; if it performed at most one merge the output list is attached and the
call returns, otherwise the width doubles and the loop repeats.  `k = 0` is
again only for totality. -/
def tat_sortloop (cmp : α → α → Int) (k : Nat) (l : List α) : List α :=
  if hk : k = 0 then l
  else if h2 : (tat_pass cmp k l).2 ≤ 1 then (tat_pass cmp k l).1
  else tat_sortloop cmp (k + k) (tat_pass cmp k l).1
termination_by l.length - k
decreasing_by
  have hlen := tat_pass_length cmp k l
  have hm := tat_pass_merges cmp k l hk (by omega)
  omega

/-- Shallow embedding of ltjson_sort (src/ltsort.c lines 37-193) at the level
of the container's child list: the guards (container type, closed tree) and
the walk to the tree root select the list; a NULL subnode returns success at
once, which coincides with the loop on `[]`.  The C function returns 1 and
relinks `snode->val.subnode` to the sorted list. -/
def ltjson_sort (cmp : α → α → Int) (children : List α) : Int × List α :=
  (1, tat_sortloop cmp 1 children)

/-- Sorted runs of width `k`: every aligned block of `k` consecutive elements
is sorted under `compar ≤ 0`. -/
def RunSorted (cmp : α → α → Int) (k : Nat) (l : List α) : Prop :=
  ∀ i : Nat, ((l.drop (k * i)).take k).Pairwise (fun a b => cmp a b ≤ 0)

/-- Width-one runs are always sorted. -/
theorem runSorted_one (cmp : α → α → Int) (l : List α) : RunSorted cmp 1 l := by
  intro i
  cases h : l.drop (1 * i) with
  | nil => simp
  | cons a rest => simp

/-- Runs survive dropping whole runs from the front. -/
theorem runSorted_drop (cmp : α → α → Int) (k : Nat) (l : List α)
    (h : RunSorted cmp k l) : RunSorted cmp k (l.drop (k + k)) := by
  intro i
  have h2 := h (i + 2)
  rw [List.drop_drop]
  have he : k + k + k * i = k * (i + 2) := by ring
  rw [he]
  exact h2

/-- The merge of two sorted runs is sorted (transitivity and totality of the
comparator's `≤ 0` relation). -/
theorem tat_merge_pairwise (cmp : α → α → Int)
    (Htrans : ∀ a b c, cmp a b ≤ 0 → cmp b c ≤ 0 → cmp a c ≤ 0)
    (Htotal : ∀ a b, cmp a b ≤ 0 ∨ cmp b a ≤ 0)
    (ps qs : List α)
    (hp : ps.Pairwise (fun a b => cmp a b ≤ 0))
    (hq : qs.Pairwise (fun a b => cmp a b ≤ 0)) :
    (tat_merge cmp ps qs).Pairwise (fun a b => cmp a b ≤ 0) := by
  rw [tat_merge_eq_merge]
  have hcore := @List.sorted_merge _ (fun a b => decide (cmp a b ≤ 0))
    (by intro a b c hab hbc; simp only [decide_eq_true_eq] at *; exact Htrans a b c hab hbc)
    (by intro a b; simpa using Htotal a b)
    ps qs (hp.imp (by simp)) (hq.imp (by simp))
  exact hcore.imp (by simp)

/-- Stability of one merge: for any tie class (elements whose comparison with
a fixed `a` is 0), merging a sorted run `ps` with a later run `qs` keeps all
class elements of `ps` before those of `qs`, in order. -/
theorem tat_merge_filter (cmp : α → α → Int)
    (Htrans : ∀ a b c, cmp a b ≤ 0 → cmp b c ≤ 0 → cmp a c ≤ 0)
    (Hzero : ∀ a b, cmp a b = 0 → cmp b a = 0)
    (a : α) :
    ∀ ps qs : List α, ps.Pairwise (fun x y => cmp x y ≤ 0) →
      (tat_merge cmp ps qs).filter (fun x => cmp x a = 0) =
        ps.filter (fun x => cmp x a = 0) ++ qs.filter (fun x => cmp x a = 0)
  | [], qs, _ => by simp [tat_merge]
  | p :: ps, [], _ => by simp [tat_merge]
  | p :: ps, q :: qs, hp => by
    rw [tat_merge]
    by_cases h : cmp p q ≤ 0
    · rw [if_pos h]
      have ih := tat_merge_filter cmp Htrans Hzero a ps (q :: qs) hp.tail
      simp only [List.filter_cons, ih]
      by_cases hcl : cmp p a = 0 <;> simp [hcl]
    · rw [if_neg h]
      have ih := tat_merge_filter cmp Htrans Hzero a (p :: ps) qs hp
      by_cases hcl : cmp q a = 0
      · -- the element taken from the later run ties with the class: then no
        -- element of the sorted earlier run can, or compar(p, q) ≤ 0 would
        -- hold by transitivity through the class
        have haq : cmp a q ≤ 0 := le_of_eq (Hzero q a hcl)
        have hnone : ∀ x ∈ p :: ps, ¬(cmp x a = 0) := by
          intro x hx hxa
          rcases List.mem_cons.mp hx with rfl | hxps
          · exact h (Htrans x a q (le_of_eq hxa) haq)
          · have hpx : cmp p x ≤ 0 := (List.pairwise_cons.mp hp).1 x hxps
            exact h (Htrans p x q hpx (Htrans x a q (le_of_eq hxa) haq))
        have hfilt : (p :: ps).filter (fun x => decide (cmp x a = 0)) = [] := by
          rw [List.filter_eq_nil_iff]
          intro x hx
          simpa using hnone x hx
        rw [List.filter_cons_of_pos (by simpa using hcl), ih, hfilt]
        simp [hcl]
      · rw [List.filter_cons_of_neg (by simpa using hcl), ih]
        simp [hcl]

/-- The sweep's view of the list: the `p` run, the `q` run, then the rest. -/
theorem sweep_decomp (k : Nat) (l : List α) :
    l.take k ++ ((l.drop k).take k ++ l.drop (k + k)) = l := by
  have h : l.drop (k + k) = (l.drop k).drop k := by rw [List.drop_drop]
  rw [h, List.take_append_drop, List.take_append_drop]

/-- A sweep of the empty list does nothing. -/
theorem tat_pass_nil (cmp : α → α → Int) (k : Nat) : tat_pass cmp k ([] : List α) = ([], 0) := by
  rw [tat_pass]
  rfl

/-- A sweep permutes the list. -/
theorem tat_pass_perm (cmp : α → α → Int) (k : Nat) (l : List α) :
    (tat_pass cmp k l).1.Perm l := by
  rw [tat_pass]
  by_cases hl : l.isEmpty
  · rw [dif_pos hl]
    cases l with
    | nil => exact .nil
    | cons a rest => simp at hl
  · rw [dif_neg hl]
    by_cases hk : k = 0
    · rw [dif_pos hk]
    · rw [dif_neg hk]
      simp only
      have ih := tat_pass_perm cmp k (l.drop (k + k))
      have hmg := tat_merge_perm cmp (l.take k) ((l.drop k).take k)
      have hall := hmg.append ih
      rw [List.append_assoc, sweep_decomp] at hall
      exact hall
termination_by l.length
decreasing_by
  have hl' : 0 < l.length := by
    cases l with
    | nil => simp at hl
    | cons a rest => simp
  have : l.length - (k + k) < l.length := by omega
  simpa [List.length_drop] using this

/-- A sweep at width `k` of a `k`-run-sorted list yields a `2k`-run-sorted
list. -/
theorem tat_pass_runSorted (cmp : α → α → Int)
    (Htrans : ∀ a b c, cmp a b ≤ 0 → cmp b c ≤ 0 → cmp a c ≤ 0)
    (Htotal : ∀ a b, cmp a b ≤ 0 ∨ cmp b a ≤ 0)
    (k : Nat) (hk : k ≠ 0) (l : List α) (h : RunSorted cmp k l) :
    RunSorted cmp (k + k) (tat_pass cmp k l).1 := by
  rw [tat_pass]
  by_cases hl : l.isEmpty
  · rw [dif_pos hl]
    intro i
    simp
  · rw [dif_neg hl, dif_neg hk]
    simp only
    have hp : (l.take k).Pairwise (fun a b => cmp a b ≤ 0) := by
      have h0 := h 0
      simpa using h0
    have hq : ((l.drop k).take k).Pairwise (fun a b => cmp a b ≤ 0) := by
      have h1 := h 1
      simpa using h1
    have hM := tat_merge_pairwise cmp Htrans Htotal _ _ hp hq
    have ihT := tat_pass_runSorted cmp Htrans Htotal k hk (l.drop (k + k)) (runSorted_drop cmp k l h)
    by_cases hlen : k + k ≤ l.length
    · -- both runs are full: the merged block has length exactly 2k
      have hMlen : (tat_merge cmp (l.take k) ((l.drop k).take k)).length = k + k := by
        rw [tat_merge_length]
        simp only [List.length_take, List.length_drop]
        omega
      intro i
      cases i with
      | zero =>
        simp only [Nat.mul_zero, List.drop_zero]
        rw [List.take_left' hMlen]
        exact hM
      | succ i' =>
        have he : (k + k) * (i' + 1) =
            (tat_merge cmp (l.take k) ((l.drop k).take k)).length + (k + k) * i' := by
          rw [hMlen]; ring
        rw [he, List.drop_append]
        exact ihT i'
    · -- the list ends inside the q run: the rest is empty and the output is
      -- the single merged block
      have hrest : l.drop (k + k) = [] := List.drop_eq_nil_of_le (by omega)
      rw [hrest, tat_pass_nil]
      have hMlen : (tat_merge cmp (l.take k) ((l.drop k).take k)).length ≤ k + k := by
        rw [tat_merge_length]
        simp only [List.length_take, List.length_drop]
        omega
      intro i
      cases i with
      | zero =>
        simp only [Nat.mul_zero, List.drop_zero, List.append_nil]
        rw [List.take_of_length_le hMlen]
        exact hM
      | succ i' =>
        rw [List.append_nil, List.drop_eq_nil_of_le (by nlinarith)]
        simp
termination_by l.length
decreasing_by
  have hl' : 0 < l.length := by
    cases l with
    | nil => simp at hl
    | cons a rest => simp
  have : l.length - (k + k) < l.length := by omega
  simpa [List.length_drop] using this

/-- A sweep of a run-sorted list preserves every tie class's subsequence. -/
theorem tat_pass_filter (cmp : α → α → Int)
    (Htrans : ∀ a b c, cmp a b ≤ 0 → cmp b c ≤ 0 → cmp a c ≤ 0)
    (Hzero : ∀ a b, cmp a b = 0 → cmp b a = 0)
    (a : α) (k : Nat) (l : List α) (h : RunSorted cmp k l) :
    (tat_pass cmp k l).1.filter (fun x => cmp x a = 0) =
      l.filter (fun x => cmp x a = 0) := by
  rw [tat_pass]
  by_cases hl : l.isEmpty
  · rw [dif_pos hl]
    cases l with
    | nil => rfl
    | cons x rest => simp at hl
  · rw [dif_neg hl]
    by_cases hk : k = 0
    · rw [dif_pos hk]
    · rw [dif_neg hk]
      simp only
      have hp : (l.take k).Pairwise (fun x y => cmp x y ≤ 0) := by
        have h0 := h 0
        simpa using h0
      have ih := tat_pass_filter cmp Htrans Hzero a k (l.drop (k + k)) (runSorted_drop cmp k l h)
      rw [List.filter_append, tat_merge_filter cmp Htrans Hzero a _ _ hp, ih]
      conv_rhs => rw [← sweep_decomp k l]
      rw [List.filter_append, List.filter_append, List.append_assoc]
termination_by l.length
decreasing_by
  have hl' : 0 < l.length := by
    cases l with
    | nil => simp at hl
    | cons x rest => simp
  have : l.length - (k + k) < l.length := by omega
  simpa [List.length_drop] using this

/-- One-step unfolding of a sweep of a nonempty list at nonzero width. -/
theorem tat_pass_cons (cmp : α → α → Int) (k : Nat) (hk : k ≠ 0) (l : List α)
    (hl : l ≠ []) :
    tat_pass cmp k l =
      (tat_merge cmp (l.take k) ((l.drop k).take k) ++ (tat_pass cmp k (l.drop (k + k))).1,
       (tat_pass cmp k (l.drop (k + k))).2 + 1) := by
  have hl' : ¬l.isEmpty := by
    cases l with
    | nil => exact absurd rfl hl
    | cons a rest => simp
  rw [tat_pass, dif_neg hl', dif_neg hk]

/-- The loop's output is a permutation of its input. -/
theorem tat_sortloop_perm (cmp : α → α → Int) (k : Nat) (l : List α) :
    (tat_sortloop cmp k l).Perm l := by
  rw [tat_sortloop]
  by_cases hk : k = 0
  · rw [dif_pos hk]
  · rw [dif_neg hk]
    by_cases h2 : (tat_pass cmp k l).2 ≤ 1
    · rw [dif_pos h2]
      exact tat_pass_perm cmp k l
    · rw [dif_neg h2]
      exact (tat_sortloop_perm cmp (k + k) (tat_pass cmp k l).1).trans (tat_pass_perm cmp k l)
termination_by l.length - k
decreasing_by
  have hlen := tat_pass_length cmp k l
  have hm := tat_pass_merges cmp k l hk (by omega)
  omega

/-- The loop's output preserves every tie class's subsequence. -/
theorem tat_sortloop_filter (cmp : α → α → Int)
    (Htrans : ∀ a b c, cmp a b ≤ 0 → cmp b c ≤ 0 → cmp a c ≤ 0)
    (Htotal : ∀ a b, cmp a b ≤ 0 ∨ cmp b a ≤ 0)
    (Hzero : ∀ a b, cmp a b = 0 → cmp b a = 0)
    (a : α) (k : Nat) (hk : k ≠ 0) (l : List α) (h : RunSorted cmp k l) :
    (tat_sortloop cmp k l).filter (fun x => cmp x a = 0) =
      l.filter (fun x => cmp x a = 0) := by
  rw [tat_sortloop, dif_neg hk]
  by_cases h2 : (tat_pass cmp k l).2 ≤ 1
  · rw [dif_pos h2]
    exact tat_pass_filter cmp Htrans Hzero a k l h
  · rw [dif_neg h2]
    rw [tat_sortloop_filter cmp Htrans Htotal Hzero a (k + k) (by omega) (tat_pass cmp k l).1
      (tat_pass_runSorted cmp Htrans Htotal k hk l h)]
    exact tat_pass_filter cmp Htrans Hzero a k l h
termination_by l.length - k
decreasing_by
  have hlen := tat_pass_length cmp k l
  have hm := tat_pass_merges cmp k l hk (by omega)
  omega

/-- The loop stops only once the list is fully sorted: a sweep with at most
one merge produced a single merged block of two sorted runs. -/
theorem tat_sortloop_sorted (cmp : α → α → Int)
    (Htrans : ∀ a b c, cmp a b ≤ 0 → cmp b c ≤ 0 → cmp a c ≤ 0)
    (Htotal : ∀ a b, cmp a b ≤ 0 ∨ cmp b a ≤ 0)
    (k : Nat) (hk : k ≠ 0) (l : List α) (h : RunSorted cmp k l) :
    (tat_sortloop cmp k l).Pairwise (fun a b => cmp a b ≤ 0) := by
  rw [tat_sortloop, dif_neg hk]
  by_cases h2 : (tat_pass cmp k l).2 ≤ 1
  · rw [dif_pos h2]
    by_cases hl : l = []
    · subst hl
      rw [tat_pass_nil]
      simp
    · rw [tat_pass_cons cmp k hk l hl] at h2 ⊢
      have hz : (tat_pass cmp k (l.drop (k + k))).2 = 0 := by
        simp only at h2
        omega
      have hdrop : l.drop (k + k) = [] := tat_pass_zero cmp k _ hz
      rw [hdrop, tat_pass_nil]
      simp only [List.append_nil]
      exact tat_merge_pairwise cmp Htrans Htotal _ _ (by simpa using h 0) (by simpa using h 1)
  · rw [dif_neg h2]
    exact tat_sortloop_sorted cmp Htrans Htotal (k + k) (by omega) (tat_pass cmp k l).1
      (tat_pass_runSorted cmp Htrans Htotal k hk l h)
termination_by l.length - k
decreasing_by
  have hlen := tat_pass_length cmp k l
  have hm := tat_pass_merges cmp k l hk (by omega)
  omega

/-- C2: for every container's child list and every three-way comparator (one
whose order is transitive and total and whose ties are symmetric, as for
qsort and strcmp result codes), ltjson_sort returns success (1), and the new
child list is a permutation of the old, sorted under `compar ≤ 0`, and
stable: every tie class keeps its original relative order (ties keep `a`
before `b`). -/
theorem C2_sort_correct (cmp : α → α → Int) (children : List α)
    (Htrans : ∀ a b c, cmp a b ≤ 0 → cmp b c ≤ 0 → cmp a c ≤ 0)
    (Htotal : ∀ a b, cmp a b ≤ 0 ∨ cmp b a ≤ 0)
    (Hzero : ∀ a b, cmp a b = 0 → cmp b a = 0) :
    (ltjson_sort cmp children).1 = 1 ∧
    (ltjson_sort cmp children).2.Perm children ∧
    (ltjson_sort cmp children).2.Pairwise (fun a b => cmp a b ≤ 0) ∧
    ∀ a : α, (ltjson_sort cmp children).2.filter (fun x => cmp x a = 0) =
      children.filter (fun x => cmp x a = 0) := by
  refine ⟨rfl, ?_, ?_, ?_⟩
  · exact tat_sortloop_perm cmp 1 children
  · exact tat_sortloop_sorted cmp Htrans Htotal 1 one_ne_zero children
      (runSorted_one cmp children)
  · intro a
    exact tat_sortloop_filter cmp Htrans Htotal Hzero a 1 one_ne_zero children
      (runSorted_one cmp children)

/-- The comparator of the C2 witness: order by `value / 2`, so 0 ties with 1
and 2 ties with 3. -/
def c2_cmp (a b : Fin 4) : Int := ((a : Nat) / 2 : Int) - ((b : Nat) / 2 : Int)

/-- Witness for C2: sorting `[2, 1, 0, 3]` by `value / 2` returns success and
the stable result `[1, 0, 2, 3]` — a sorted permutation with the tied pairs
(1, 0) and (2, 3) in their original order. -/
theorem C2_sort_correct_witness :
    (∀ a b c : Fin 4, c2_cmp a b ≤ 0 → c2_cmp b c ≤ 0 → c2_cmp a c ≤ 0) ∧
    (∀ a b : Fin 4, c2_cmp a b ≤ 0 ∨ c2_cmp b a ≤ 0) ∧
    (∀ a b : Fin 4, c2_cmp a b = 0 → c2_cmp b a = 0) ∧
    (ltjson_sort c2_cmp [2, 1, 0, 3]).2 = ([1, 0, 2, 3] : List (Fin 4)) ∧
    ((ltjson_sort c2_cmp [2, 1, 0, 3]).1 = 1 ∧
      (ltjson_sort c2_cmp [2, 1, 0, 3]).2.Perm [2, 1, 0, 3] ∧
      (ltjson_sort c2_cmp [2, 1, 0, 3]).2.Pairwise (fun a b => c2_cmp a b ≤ 0) ∧
      ∀ a : Fin 4, (ltjson_sort c2_cmp [2, 1, 0, 3]).2.filter (fun x => c2_cmp x a = 0) =
        ([2, 1, 0, 3] : List (Fin 4)).filter (fun x => c2_cmp x a = 0)) :=
  ⟨by decide, by decide, by decide,
    by simp +decide [ltjson_sort, tat_sortloop, tat_pass, tat_merge, c2_cmp],
    C2_sort_correct c2_cmp [2, 1, 0, 3] (by decide) (by decide) (by decide)⟩

/-! ## C3: the path resolver (src/ltpath.c)

`ltjson_rpath_t` keeps a pointer into the path text plus `namelen`; the
embedding stores the segment's bytes themselves.  The name-hash variant
(namelen = -1 after path_hashify_rpath, pointer comparison) is not embedded:
the claim is settled on the hash-inactive path, where path_getobject compares
names with `strncmp(atnode->name, refpath->name, refpath->namelen)`
(src/ltpath.c lines 264-265) — a prefix comparison, since the child's name
is only inspected for the first `namelen` bytes. -/

/-- A tokenized path segment (ltjson_rpath_t, src/ltpath.c lines 17-22).
`aindex = -1` means "any index". -/
structure Rseg where
  name : List Byte
  hasindex : Bool
  aindex : Int
deriving Repr

/-- C `strncmp(child, seg, seg.length) == 0` where `child` is a NUL-terminated
string and `seg` the segment's bytes: compare the first `seg.length` bytes of
`child` (the NUL terminator behaving as one more byte) with the segment. -/
def strncmp_seg (child : List Byte) (seg : List Byte) : Bool :=
  (child ++ [0]).take seg.length = seg

/-- The object-scan predicate of path_getobject (src/ltpath.c lines 258-271):
array elements have no name and never match. -/
def seg_name_match (seg : Rseg) (ch : JNode) : Bool :=
  match ch with
  | .scalar (some nm) _ => strncmp_seg nm seg.name
  | .obj (some nm) _ => strncmp_seg nm seg.name
  | .arr (some nm) _ => strncmp_seg nm seg.name
  | _ => false

/-- Children and name of a node, for the resolver. -/
def JNode.subnodes : JNode → List JNode
  | .scalar _ _ => []
  | .obj _ children => children
  | .arr _ children => children

mutual

/-- Shallow embedding of path_getobject (src/ltpath.c lines 213-325) on the
hash-inactive path.  An exhausted segment list records the current node as a
match; an OBJECT atnode requires a nonempty segment name, scans its children
for the first strncmp match, refuses an index on a non-array child, returns
the array itself for a trailing index-less array segment, and otherwise
iterates that array; an ARRAY atnode requires an empty segment name and
iterates; scalars match nothing.  The bounded output store is modelled by
returning all matches (the C stores the first `storeavail` of them and keeps
counting). -/
def path_getobject (atnode : JNode) : List Rseg → List JNode
  | [] => [atnode]
  | seg :: rest =>
    match atnode with
    | .scalar _ _ => []
    | .obj _ children =>
      if seg.name.length = 0 then []
      else
        match children.find? (seg_name_match seg) with
        | none => []
        | some ch =>
          match ch with
          | .arr chname els =>
            if seg.hasindex = false && rest.isEmpty then
              path_getobject (.arr chname els) rest
            else
              path_getarray els seg rest 0
          | _ =>
            if seg.hasindex then [] else path_getobject ch rest
    | .arr _ els =>
      if seg.name.length ≠ 0 then []
      else path_getarray els seg rest 0
termination_by segs => (segs.length, 1, 0)

/-- The array-iteration tail of path_getobject (src/ltpath.c lines 303-324):
`thisindex` counts elements, and is only incremented while a concrete
`aindex` is being matched (the `&&` short-circuit in the C). -/
def path_getarray (els : List JNode) (seg : Rseg) (rest : List Rseg) (idx : Int) :
    List JNode :=
  match els with
  | [] => []
  | el :: els' =>
    if 0 ≤ seg.aindex && !(seg.aindex = idx) then
      path_getarray els' seg rest (idx + 1)
    else
      path_getobject el rest ++
        path_getarray els' seg rest (if 0 ≤ seg.aindex then idx + 1 else idx)
termination_by (rest.length + 1, 0, els.length)

end

/-- strtol inside path_tokenise (src/ltpath.c lines 108-121): parse the array
index, requiring the very next byte to be `]` and a non-negative in-range
value. -/
def parse_index (l : List Byte) : Option (Int × List Byte) :=
  let sgn : Bool := l.headD 0 = 45
  let rest := if l.headD 0 = 45 || l.headD 0 = 43 then l.tail else l
  let ds := rest.takeWhile isdigitB
  let after := rest.dropWhile isdigitB
  if ds = [] then none
  else
    let v : Int := if sgn then -(digitsVal ds : Int) else (digitsVal ds : Int)
    if v < int64_min || int64_max < v then none
    else
      match after with
      | 93 :: after' => if v < 0 then none else some (v, after')
      | _ => none

/-- Segment collector of path_tokenise (src/ltpath.c lines 59-133): one
iteration per segment, at most `slots` of them (the C bounds the stack at 8
and reports ERANGE beyond). -/
def path_tokenise_loop : List Byte → Nat → Option (List Rseg)
  | _, 0 => none
  | [], _ + 1 => some []
  | c :: rest, slots + 1 =>
    if c = 47 then none
    else
      let name := (c :: rest).takeWhile (fun b => !(b = 91) && !(b = 47))
      let after := (c :: rest).dropWhile (fun b => !(b = 91) && !(b = 47))
      match after with
      | [] => some [⟨name, false, -1⟩]
      | 47 :: rest2 => (path_tokenise_loop rest2 slots).map (⟨name, false, -1⟩ :: ·)
      | 91 :: rest2 =>
        let idxAndRest : Option (Int × List Byte) :=
          match rest2 with
          | 93 :: rest3 => some (-1, rest3)
          | 42 :: 93 :: rest3 => some (-1, rest3)
          | _ => parse_index rest2
        match idxAndRest with
        | none => none
        | some (v, rest3) =>
          match rest3 with
          | [] => some [⟨name, true, v⟩]
          | 47 :: rest4 => (path_tokenise_loop rest4 slots).map (⟨name, true, v⟩ :: ·)
          | _ => none
      | _ => none

/-- Shallow embedding of path_tokenise (src/ltpath.c lines 40-137): the path
must begin with `/`; a bare `/` yields no segments (the root). -/
def path_tokenise (path : List Byte) : Option (List Rseg) :=
  match path with
  | 47 :: rest => path_tokenise_loop rest 8
  | _ => none

/-- The concrete tree of `{"ab":1}`. -/
def c3_tree : JNode := .obj none [.scalar (some (bs "ab")) (.int 1)]

/-- C3 evaluation at the failing input: parsing `{"ab":1}` (hash inactive)
and resolving the path `/a` — whose single segment names `a`, without index —
returns ONE match, the member `ab`, because the strncmp in path_getobject
compares only the first `namelen = 1` bytes.  The claim (and spec section
4.F) requires whole-name equality, i.e. no match here. -/
theorem C3_prefix_match_evaluation :
    ltjson_parse .preInit (bs "\x7b\"ab\":1\x7d") = .closed c3_tree ∧
    path_tokenise (bs "/a") = some [⟨bs "a", false, -1⟩] ∧
    path_getobject c3_tree [⟨bs "a", false, -1⟩] =
      [.scalar (some (bs "ab")) (.int 1)] := by
  refine ⟨rfl, rfl, ?_⟩
  simp [path_getobject, c3_tree, seg_name_match, strncmp_seg, bs, List.find?]

/-! ## C8: the depth-first step function

The step with a root boundary, `traverse_tree_nodes(node, root)`, belongs to
the 2016 generation's main file, which is not under src/ (its callers are:
ltjson_search and ltjson_promote in src/ltsort.c).  It is modelled from spec
section 4.F — "if node is a container with children, descend to the first
child; else if node.next, take it; else walk up via ancestor links, returning
the first next sibling found, stopping at root if supplied".  The 2015
one-argument variant (src/ltjson.c lines 366-385) descends into containers
unconditionally; the 2016 generation's own display walk (src/ltutils.c lines
161-212) shows the children-guarded descent the spec describes.  A node is
addressed by its path of child indices below the traversal root. -/

/-- The node of `t` at a path of child indices. -/
def nodeAt : JNode → List Nat → Option JNode
  | n, [] => some n
  | n, i :: p =>
    match (JNode.subnodes n)[i]? with
    | none => none
    | some c => nodeAt c p

/-- The position of the next sibling: the last child index, incremented. -/
def bump (p : List Nat) : List Nat := p.dropLast ++ [p.getLastD 0 + 1]

/-- Modelled from the spec: the walk-up part of traverse_tree_nodes — take
the node's own next sibling if it exists, else climb the ancestor chain
doing the same, and stop (with no-more-nodes) at the traversal root. -/
def up_next (t : JNode) (p : List Nat) : Option (List Nat) :=
  if hp : p.isEmpty then none
  else if (nodeAt t (bump p)).isSome then some (bump p)
  else up_next t p.dropLast
termination_by p.length
decreasing_by
  cases p with
  | nil => simp at hp
  | cons i q =>
    simp only [List.length_dropLast, List.length_cons]
    omega

/-- Modelled from the spec: traverse_tree_nodes(node, root) — descend to the
first child of a container that has children, otherwise step to the next
sibling, own or of the nearest ancestor below the root. -/
def traverse_tree_nodes (t : JNode) (p : List Nat) : Option (List Nat) :=
  match nodeAt t p with
  | none => none
  | some n =>
    if (JNode.subnodes n).isEmpty then up_next t p
    else some (p ++ [0])

/-- The claim's wording, stated independently: the candidate ancestors are
the node itself and its proper ancestors, nearest (longest position) first,
the traversal root excluded. -/
def prefixes_desc (p : List Nat) : List (List Nat) :=
  if hp : p.isEmpty then []
  else p :: prefixes_desc p.dropLast
termination_by p.length
decreasing_by
  cases p with
  | nil => simp at hp
  | cons i q =>
    simp only [List.length_dropLast, List.length_cons]
    omega

/-- Helper equation for `prefixes_desc` on any nonempty position. -/
theorem prefixes_desc_ne (p : List Nat) (hp : p ≠ []) :
    prefixes_desc p = p :: prefixes_desc p.dropLast := by
  rw [prefixes_desc]
  rw [dif_neg ?_]
  cases p with
  | nil => exact absurd rfl hp
  | cons i q => simp

/-- The walk-up equals the claim's description: the first candidate, nearest
first, whose next-sibling position exists. -/
theorem up_next_eq_find (t : JNode) (p : List Nat) :
    up_next t p =
      ((prefixes_desc p).find? (fun q => (nodeAt t (bump q)).isSome)).map bump := by
  rw [up_next, prefixes_desc]
  by_cases hp : p.isEmpty
  · rw [dif_pos hp, dif_pos hp]
    rfl
  · rw [dif_neg hp, dif_neg hp, List.find?]
    by_cases hs : (nodeAt t (bump p)).isSome
    · rw [if_pos hs, hs]
      rfl
    · rw [if_neg hs]
      rw [Bool.not_eq_true] at hs
      rw [hs]
      exact up_next_eq_find t p.dropLast
termination_by p.length
decreasing_by
  cases p with
  | nil => simp at hp
  | cons i q =>
    simp only [List.length_dropLast, List.length_cons]
    omega

/-- C8: the depth-first step.  For every node `n` of the tree at position
`p`: when `n` is a container with children the step descends to the first
child; otherwise it moves to the next-sibling position of the nearest
candidate among the node and its ancestors below the root that has one —
in particular a childless container with a next sibling steps to that
sibling — and it reports no-more-nodes exactly when no candidate has a next
sibling. -/
theorem C8_traverse_step (t : JNode) (p : List Nat) (n : JNode)
    (h : nodeAt t p = some n) :
    (JNode.subnodes n ≠ [] → traverse_tree_nodes t p = some (p ++ [0])) ∧
    (JNode.subnodes n = [] →
      traverse_tree_nodes t p =
        ((prefixes_desc p).find? (fun q => (nodeAt t (bump q)).isSome)).map bump) ∧
    (JNode.subnodes n = [] →
      (traverse_tree_nodes t p = none ↔
        ∀ q ∈ prefixes_desc p, nodeAt t (bump q) = none)) ∧
    (JNode.subnodes n = [] → p ≠ [] → (nodeAt t (bump p)).isSome →
      traverse_tree_nodes t p = some (bump p)) := by
  have hup : JNode.subnodes n = [] → traverse_tree_nodes t p = up_next t p := by
    intro hnil
    rw [traverse_tree_nodes, h]
    simp [hnil]
  refine ⟨?_, ?_, ?_, ?_⟩
  · intro hne
    rw [traverse_tree_nodes, h]
    have : (JNode.subnodes n).isEmpty = false := by
      cases hs : JNode.subnodes n with
      | nil => exact absurd hs hne
      | cons a rest => rfl
    simp [this]
  · intro hnil
    rw [hup hnil]
    exact up_next_eq_find t p
  · intro hnil
    rw [hup hnil, up_next_eq_find t p]
    rw [Option.map_eq_none', List.find?_eq_none]
    constructor
    · intro hall q hq
      have := hall q hq
      simpa [Option.isSome_iff_ne_none] using this
    · intro hall q hq
      have := hall q hq
      simp [this]
  · intro hnil hp hs
    rw [hup hnil, up_next_eq_find t p, prefixes_desc_ne p hp, List.find?]
    rw [hs]
    rfl

/-- The C8 witness tree `{"a":{},"b":5}`: its first member is a childless
container whose step must go to the sibling `b`, not to no-more-nodes. -/
def c8_tree : JNode :=
  .obj none [.obj (some (bs "a")) [], .scalar (some (bs "b")) (.int 5)]

/-- Witness for C8 at the childless container `{}` of `{"a":{},"b":5}`
(position [0]): the hypotheses hold and the step goes to its next sibling
[1]. -/
theorem C8_traverse_step_witness :
    nodeAt c8_tree [0] = some (.obj (some (bs "a")) []) ∧
    traverse_tree_nodes c8_tree [0] = some [1] := by
  refine ⟨by rfl, ?_⟩
  have h := (C8_traverse_step c8_tree [0] (.obj (some (bs "a")) []) (by rfl)).2.2.2
  have hres := h rfl (by simp) (by rfl)
  simpa [bump] using hres

/-! ## C7: ltjson_promote (src/ltsort.c lines 288-383)

The walk uses the two-argument traverse_tree_nodes and, within each OBJECT
visited, the prevnode scan splices the first member whose name matches to the
head of the child list.  The embedding walks the subtree structurally: the in-
place C walk visits each object exactly once and each splice only reorders a
single child list (it changes no name and no object set), so the two orders
build the same tree and the same count.  The hash-inactive comparison path is
embedded (`*promnode->name == *name && strcmp(...) == 0`, an exact whole-name
comparison — unlike the path resolver's strncmp). -/

/-- Whole-name equality of a child against the promoted name, as in the C
member scans (array children have no name and never match). -/
def name_eq (name : List Byte) : JNode → Bool
  | .scalar (some nm) _ => nm = name
  | .obj (some nm) _ => nm = name
  | .arr (some nm) _ => nm = name
  | _ => false

/-- The prevnode scan of one object (src/ltsort.c lines 338-358): walk the
child list keeping the already-passed prefix; stop at the first name match,
returning (passed prefix, match, remainder). -/
def promote_scan (name : List Byte) (pre : List JNode) :
    List JNode → Option (List JNode × JNode × List JNode)
  | [] => none
  | c :: cs =>
    if name_eq name c then some (pre.reverse, c, cs)
    else promote_scan name (c :: pre) cs

/-- The splice (src/ltsort.c lines 360-370): found and not already first
means break the member out and link it at the head; the flag reports whether
this object was modified. -/
def promote_splice (name : List Byte) (children : List JNode) : List JNode × Bool :=
  match promote_scan name [] children with
  | none => (children, false)
  | some ([], _, _) => (children, false)
  | some (pre, prom, rest) => (prom :: (pre ++ rest), true)

mutual

/-- The subtree walk of ltjson_promote: every OBJECT node (the subtree root
included) has its child list spliced, and the modified objects are counted.
Children are promoted first and the object's own splice applied to the
result; the splice moves a child without changing any name, so this equals
the C's splice-then-descend order. -/
def promote_walk (name : List Byte) : JNode → JNode × Nat
  | .scalar nm v => (.scalar nm v, 0)
  | .arr nm children =>
    let rs := promote_children name children
    (.arr nm rs.1, rs.2)
  | .obj nm children =>
    let rs := promote_children name children
    let sp := promote_splice name rs.1
    (.obj nm sp.1, rs.2 + (if sp.2 then 1 else 0))

/-- Promote each child in order, summing the counts. -/
def promote_children (name : List Byte) : List JNode → List JNode × Nat
  | [] => ([], 0)
  | c :: cs =>
    let r1 := promote_walk name c
    let r2 := promote_children name cs
    (r1.1 :: r2.1, r1.2 + r2.2)

end

/-- Shallow embedding of the ltjson_promote entry (src/ltsort.c lines
288-383), hash-inactive: a non-container root is EPERM, an empty child list
ENOENT, zero modified objects ENOENT — all returning 0 — and otherwise the
walk runs and 1 is returned. -/
def ltjson_promote (rnode : JNode) (name : List Byte) : Int × JNode :=
  match rnode with
  | .scalar _ _ => (0, rnode)
  | _ =>
    if (JNode.subnodes rnode).isEmpty then (0, rnode)
    else
      let r := promote_walk name rnode
      if r.2 = 0 then (0, r.1) else (1, r.1)

mutual

/-- The claim-side count: the number of objects in the subtree whose child
list contains the named member at a position other than the head. -/
def promote_count_spec (name : List Byte) : JNode → Nat
  | .scalar _ _ => 0
  | .arr _ cs => promote_count_list name cs
  | .obj _ cs =>
    promote_count_list name cs +
      (match cs.findIdx? (name_eq name) with
       | some (_ + 1) => 1
       | _ => 0)

/-- Claim-side count over a child list. -/
def promote_count_list (name : List Byte) : List JNode → Nat
  | [] => 0
  | c :: cs => promote_count_spec name c + promote_count_list name cs

end

/-- The scan finds exactly the first index match: relation to findIdx?. -/
theorem promote_scan_eq (name : List Byte) :
    ∀ (cs : List JNode) (pre : List JNode),
      promote_scan name pre cs =
        match cs.findIdx? (name_eq name) with
        | none => none
        | some i =>
          match cs[i]? with
          | none => none
          | some prom => some (pre.reverse ++ cs.take i, prom, cs.drop (i + 1))
  | [], pre => by simp [promote_scan, List.findIdx?]
  | c :: cs, pre => by
    rw [promote_scan, List.findIdx?_cons]
    by_cases h : name_eq name c
    · simp [h]
    · simp only [h, cond_false]
      rw [promote_scan_eq name cs (c :: pre)]
      cases hf : cs.findIdx? (name_eq name) with
      | none => simp [hf]
      | some i =>
        cases hg : cs[i]? with
        | none => simp [hf, hg]
        | some prom =>
          have h2 : (c :: cs)[i + 1]? = some prom := by simpa using hg
          simp [hf, hg, h2, List.take_succ_cons, List.drop_succ_cons]

/-- A found index has an element. -/
theorem findIdx?_getElem {l : List JNode} {p : JNode → Bool} {i : Nat}
    (h : l.findIdx? p = some i) : ∃ prom, l[i]? = some prom := by
  rcases List.findIdx?_eq_some_iff_getElem.mp h with ⟨hlt, _, _⟩
  exact ⟨l[i], by simp [List.getElem?_eq_getElem hlt]⟩

/-- The scan at a found index: the prefix passed, the member, the rest. -/
theorem promote_scan_some (name : List Byte) (cs : List JNode) (pre : List JNode)
    (i : Nat) (prom : JNode)
    (hf : cs.findIdx? (name_eq name) = some i) (hg : cs[i]? = some prom) :
    promote_scan name pre cs = some (pre.reverse ++ cs.take i, prom, cs.drop (i + 1)) := by
  rw [promote_scan_eq name cs pre]
  simp [hf, hg]

/-- The scan with no match. -/
theorem promote_scan_none (name : List Byte) (cs : List JNode) (pre : List JNode)
    (hf : cs.findIdx? (name_eq name) = none) :
    promote_scan name pre cs = none := by
  rw [promote_scan_eq name cs pre]
  simp [hf]

/-- Splice, found-and-not-first case: the member is broken out and placed
first; the other children keep their order. -/
theorem promote_splice_found (name : List Byte) (l : List JNode) (i : Nat) (prom : JNode)
    (hf : l.findIdx? (name_eq name) = some i) (hi : 0 < i) (hg : l[i]? = some prom) :
    promote_splice name l = (prom :: l.eraseIdx i, true) := by
  obtain ⟨i', rfl⟩ : ∃ i', i = i' + 1 := ⟨i - 1, by omega⟩
  unfold promote_splice
  rw [promote_scan_some name l [] (i' + 1) prom hf hg]
  have hlen : i' + 1 < l.length := by
    rcases List.findIdx?_eq_some_iff_getElem.mp hf with ⟨hlt, _, _⟩
    exact hlt
  cases ht : l.take (i' + 1) with
  | nil =>
    exfalso
    have := congrArg List.length ht
    simp only [List.length_take, List.length_nil] at this
    omega
  | cons x xs =>
    simp only [List.reverse_nil, List.nil_append, ht]
    rw [List.eraseIdx_eq_take_drop_succ, ht]

/-- Splice, no-match-or-already-first case: the child list is untouched. -/
theorem promote_splice_notfound (name : List Byte) (l : List JNode)
    (h : l.findIdx? (name_eq name) = none ∨ l.findIdx? (name_eq name) = some 0) :
    promote_splice name l = (l, false) := by
  unfold promote_splice
  rcases h with h | h
  · rw [promote_scan_none name l [] h]
  · obtain ⟨prom, hg⟩ := findIdx?_getElem h
    rw [promote_scan_some name l [] 0 prom h hg]
    simp

/-- The splice permutes the child list. -/
theorem promote_splice_perm (name : List Byte) (l : List JNode) :
    (promote_splice name l).1.Perm l := by
  cases hf : l.findIdx? (name_eq name) with
  | none =>
    rw [promote_splice_notfound name l (.inl hf)]
  | some i =>
    cases i with
    | zero =>
      rw [promote_splice_notfound name l (.inr hf)]
    | succ i' =>
      obtain ⟨prom, hg⟩ := findIdx?_getElem hf
      rw [promote_splice_found name l (i' + 1) prom hf (by omega) hg]
      have hlt : i' + 1 < l.length := by
        rcases List.findIdx?_eq_some_iff_getElem.mp hf with ⟨h1, _, _⟩
        exact h1
      have hgel : l[i' + 1] = prom := by
        have := List.getElem?_eq_getElem hlt
        rw [this] at hg
        exact Option.some_inj.mp hg
      rw [List.eraseIdx_eq_take_drop_succ]
      have h1 : (prom :: (l.take (i' + 1) ++ l.drop (i' + 1 + 1))).Perm
          (l.take (i' + 1) ++ prom :: l.drop (i' + 1 + 1)) := List.perm_middle.symm
      have h2 : l.take (i' + 1) ++ prom :: l.drop (i' + 1 + 1) = l := by
        rw [← hgel, ← List.drop_eq_getElem_cons hlt, List.take_append_drop]
      rw [h2] at h1
      exact h1

/-- The splice flag: set exactly when the member is present beyond the
head. -/
theorem promote_splice_flag (name : List Byte) (l : List JNode) :
    (promote_splice name l).2 =
      (match l.findIdx? (name_eq name) with
       | some (i + 1) => true
       | _ => false) := by
  cases hf : l.findIdx? (name_eq name) with
  | none => rw [promote_splice_notfound name l (.inl hf)]
  | some i =>
    cases i with
    | zero => rw [promote_splice_notfound name l (.inr hf)]
    | succ i' =>
      obtain ⟨prom, hg⟩ := findIdx?_getElem hf
      rw [promote_splice_found name l (i' + 1) prom hf (by omega) hg]

/-- Name projection of a node. -/
def JNode.nameOf : JNode → Option (List Byte)
  | .scalar nm _ => nm
  | .obj nm _ => nm
  | .arr nm _ => nm

/-- The promote walk keeps every node's name. -/
theorem promote_walk_nameOf (name : List Byte) (t : JNode) :
    ((promote_walk name t).1).nameOf = t.nameOf := by
  cases t <;> simp [promote_walk, JNode.nameOf]

/-- The member predicate depends only on the node's name. -/
theorem name_eq_eq_nameOf (name : List Byte) (ch : JNode) :
    name_eq name ch =
      (match JNode.nameOf ch with
       | some nm => decide (nm = name)
       | none => false) := by
  cases ch with
  | scalar nm v => cases nm <;> rfl
  | obj nm cs => cases nm <;> rfl
  | arr nm cs => cases nm <;> rfl

/-- The walk leaves the member predicate of each child unchanged. -/
theorem name_eq_walk (name : List Byte) (t : JNode) :
    name_eq name ((promote_walk name t).1) = name_eq name t := by
  rw [name_eq_eq_nameOf, name_eq_eq_nameOf, promote_walk_nameOf]

/-- Promoting the children does not move the first member match. -/
theorem promote_children_findIdx (name : List Byte) (cs : List JNode) :
    (promote_children name cs).1.findIdx? (name_eq name) =
      cs.findIdx? (name_eq name) := by
  induction cs with
  | nil => simp [promote_children]
  | cons c cs ih =>
    simp only [promote_children, List.findIdx?_cons, List.findIdx?_succ, name_eq_walk, ih]

mutual

/-- The walk's count equals the claim's count of modified objects. -/
theorem promote_walk_count (name : List Byte) :
    ∀ t : JNode, (promote_walk name t).2 = promote_count_spec name t
  | .scalar nm v => by simp [promote_walk, promote_count_spec]
  | .arr nm cs => by
    simp only [promote_walk, promote_count_spec]
    exact promote_children_count name cs
  | .obj nm cs => by
    simp only [promote_walk, promote_count_spec]
    rw [promote_splice_flag, promote_children_findIdx, promote_children_count name cs]
    cases hf : cs.findIdx? (name_eq name) with
    | none => simp
    | some i => cases i <;> simp

/-- Count over a promoted child list. -/
theorem promote_children_count (name : List Byte) :
    ∀ cs : List JNode, (promote_children name cs).2 = promote_count_list name cs
  | [] => by simp [promote_children, promote_count_list]
  | c :: cs => by
    simp only [promote_children, promote_count_list]
    rw [promote_walk_count name c, promote_children_count name cs]

end

/-- The inner object of `{"a":{"b":1,"price":9,"c":2}}`, child list only. -/
def c7_children : List JNode :=
  [.scalar (some (bs "b")) (.int 1), .scalar (some (bs "price")) (.int 9),
   .scalar (some (bs "c")) (.int 2)]

/-- Counterexample to C7's return value: an array of two objects that each
hold `price` at index 1.  The walk modifies both objects — the count of
modified objects is 2, and both child lists come out reshuffled — but
ltjson_promote returns 1, not 2: the internal `matches` counter of
src/ltsort.c line 369 is never returned, lines 376-382 collapse any
success to 1. -/
theorem C7_counterexample_flag_not_count :
    promote_count_spec (bs "price")
      (.arr none [.obj (some (bs "a")) c7_children,
                  .obj (some (bs "b")) c7_children]) = 2 ∧
    (ltjson_promote
      (.arr none [.obj (some (bs "a")) c7_children,
                  .obj (some (bs "b")) c7_children]) (bs "price")).1 = 1 ∧
    (1 : Int) ≠ 2 := by
  refine ⟨by rfl, by rfl, by decide⟩

/-- C7, amended: for every subtree root and member name (hash inactive),
promote visits every OBJECT of the subtree and splices the first member
whose whole name equals `name` to the head of that object's child list
when it is present and not already first — the splice permutes the list,
moving only that member.  The number of objects modified is counted
internally (the walk count equals the independently stated specification
count) but NOT returned: the return value is 1 whenever at least one
object was modified and 0 (the not-found error) when none was. -/
theorem C7_promote_correct (name : List Byte) :
    (∀ l : List JNode, (promote_splice name l).1.Perm l) ∧
    (∀ (l : List JNode) (i : Nat) (prom : JNode),
      l.findIdx? (name_eq name) = some i → 0 < i → l[i]? = some prom →
      promote_splice name l = (prom :: l.eraseIdx i, true)) ∧
    (∀ l : List JNode,
      l.findIdx? (name_eq name) = none ∨ l.findIdx? (name_eq name) = some 0 →
      promote_splice name l = (l, false)) ∧
    (∀ t : JNode, (promote_walk name t).2 = promote_count_spec name t) ∧
    (∀ t : JNode, (ltjson_promote t name).1 =
      if promote_count_spec name t = 0 then 0 else 1) := by
  refine ⟨promote_splice_perm name, promote_splice_found name, promote_splice_notfound name,
    promote_walk_count name, ?_⟩
  intro t
  cases t with
  | scalar nm v => simp [ltjson_promote, promote_count_spec]
  | arr nm cs =>
    cases cs with
    | nil => simp [ltjson_promote, JNode.subnodes, promote_count_spec, promote_count_list]
    | cons c cs' =>
      simp only [ltjson_promote, JNode.subnodes, List.isEmpty_cons, if_false]
      rw [show (promote_walk name (.arr nm (c :: cs'))).2 = promote_count_spec name (.arr nm (c :: cs')) from promote_walk_count name _]
      by_cases hz : promote_count_spec name (.arr nm (c :: cs')) = 0 <;> simp [hz]
  | obj nm cs =>
    cases cs with
    | nil => simp [ltjson_promote, JNode.subnodes, promote_count_spec, promote_count_list]
    | cons c cs' =>
      simp only [ltjson_promote, JNode.subnodes, List.isEmpty_cons, if_false]
      rw [show (promote_walk name (.obj nm (c :: cs'))).2 = promote_count_spec name (.obj nm (c :: cs')) from promote_walk_count name _]
      by_cases hz : promote_count_spec name (.obj nm (c :: cs')) = 0 <;> simp [hz]

/-- Witness for the amended C7 at the spec's scenario 5: `price` sits at
index 1 of the inner object, the splice moves it to the head, and promote
collapses the one modified object to the success return 1. -/
theorem C7_promote_correct_witness :
    c7_children.findIdx? (name_eq (bs "price")) = some 1 ∧
    c7_children[1]? = some (.scalar (some (bs "price")) (.int 9)) ∧
    promote_splice (bs "price") c7_children =
      (.scalar (some (bs "price")) (.int 9) :: c7_children.eraseIdx 1, true) ∧
    (ltjson_promote (.obj none [.obj (some (bs "a")) c7_children]) (bs "price")).1 =
      (if promote_count_spec (bs "price")
          (.obj none [.obj (some (bs "a")) c7_children]) = 0 then 0 else 1) :=
  ⟨by rfl, by rfl,
    (C7_promote_correct (bs "price")).2.1 c7_children 1 _ (by rfl) (by omega) (by rfl),
    (C7_promote_correct (bs "price")).2.2.2.2 _⟩

/-! ## C4 — name-hash interning (src/lthash.c)

The hash system: a bucket table of NHASH_NBUCKETS chains of cells, each cell
holding a pointer into the string store.  We model the store as the list of
committed strings in insertion order and a "pointer" as 0 for the static
`ltjson_empty_name` (returned for "") or `i + 1` for the `i`-th committed
string; a bucket is the list of committed-string indices chained there, head
first (the C prepends new cells at the bucket head).  The cell-block
allocator (nhash_addstore) only provisions memory for cells and cannot
change which string a pointer denotes; C4 is about successful parses, so
allocation is taken to succeed. -/

/-- djbhash (src/lthash.c lines 40-49): hash = 5381, then hash*33 + c per
byte, in `unsigned long` (64-bit) arithmetic. -/
def djbhash (s : List Byte) : Nat :=
  s.foldl (fun h c => (h * 33 + c) % 2 ^ 64) 5381

def NHASH_NBUCKETS : Nat := 512

/-- The hash system state: committed strings in order, and the bucket
chains of indices into that store. -/
structure HState where
  store : List (List Byte)
  nhtab : Nat → List Nat

/-- A fresh hash (nhash_new): empty buckets, nothing committed. -/
def hinit : HState := ⟨[], fun _ => []⟩

/-- nhash_insert (src/lthash.c lines 294-354) with the table present: "" maps
to the static empty name (pointer 0); otherwise scan the chain of
djbhash(s) % NHASH_NBUCKETS for a strcmp match and return that cell's
string, else commit s to the store and prepend a cell for it to the
bucket. -/
def nhash_insert (st : HState) (s : List Byte) : Nat × HState :=
  if s = [] then (0, st)
  else
    match (st.nhtab (djbhash s % NHASH_NBUCKETS)).find?
        (fun i => st.store.getD i [] = s) with
    | some i => (i + 1, st)
    | none =>
      (st.store.length + 1,
       { store := st.store ++ [s],
         nhtab := fun h =>
           if h = djbhash s % NHASH_NBUCKETS then
             st.store.length :: st.nhtab h
           else st.nhtab h })

/-- nhash_lookup (src/lthash.c lines 367-393) with the table present: "" maps
to the static empty name; otherwise the first strcmp match on the chain of
the hash bucket, or not-found. -/
def nhash_lookup (st : HState) (s : List Byte) : Option Nat :=
  if s = [] then some 0
  else
    match (st.nhtab (djbhash s % NHASH_NBUCKETS)).find?
        (fun i => st.store.getD i [] = s) with
    | some i => some (i + 1)
    | none => none

/-- Interning every object-member name seen during a parse: ltjson_parse
calls nhash_insert once per member name encountered. -/
def nhash_insertAll (st : HState) (names : List (List Byte)) : HState :=
  names.foldl (fun a s => (nhash_insert a s).2) st

/-- The hash-system invariant: no string is committed twice, every chained
index denotes a committed string, and every committed string is chained in
its own hash bucket. -/
def HInv (st : HState) : Prop :=
  st.store.Nodup ∧
  (∀ h i, i ∈ st.nhtab h → i < st.store.length) ∧
  (∀ i, i < st.store.length →
    i ∈ st.nhtab (djbhash (st.store.getD i []) % NHASH_NBUCKETS))

theorem HInv_hinit : HInv hinit :=
  ⟨List.nodup_nil, fun _ _ hi => by simp [hinit] at hi,
   fun i hi => by simp [hinit] at hi⟩

/-- A committed string is absent from the store whenever its bucket scan
fails. -/
theorem find_none_not_mem (st : HState) (s : List Byte) (hinv : HInv st)
    (hf : (st.nhtab (djbhash s % NHASH_NBUCKETS)).find?
        (fun i => st.store.getD i [] = s) = none) :
    s ∉ st.store := by
  intro hmem
  obtain ⟨i, hi, hgi⟩ := List.mem_iff_getElem.mp hmem
  have hgd : st.store.getD i [] = s := by
    rw [List.getD_eq_getElem?_getD, List.getElem?_eq_getElem hi]
    exact hgi
  have hbucket := hinv.2.2 i hi
  rw [hgd] at hbucket
  have hcon := List.find?_eq_none.mp hf i hbucket
  simp only [decide_eq_true_eq] at hcon
  exact hcon hgd

/-- The state after a miss: the string is appended to the store and its
index prepended to its hash bucket. -/
theorem nhash_insert_miss (st : HState) (s : List Byte) (hs : s ≠ [])
    (hf : (st.nhtab (djbhash s % NHASH_NBUCKETS)).find?
        (fun i => st.store.getD i [] = s) = none) :
    (nhash_insert st s).2.store = st.store ++ [s] ∧
    ∀ h, (nhash_insert st s).2.nhtab h =
      if h = djbhash s % NHASH_NBUCKETS then st.store.length :: st.nhtab h
      else st.nhtab h := by
  constructor
  · rw [nhash_insert, if_neg hs, hf]
  · intro h
    rw [nhash_insert, if_neg hs, hf]

/-- The state after a hit or on the empty string: unchanged. -/
theorem nhash_insert_hit (st : HState) (s : List Byte) (i : Nat)
    (hs : s ≠ [])
    (hf : (st.nhtab (djbhash s % NHASH_NBUCKETS)).find?
        (fun i => st.store.getD i [] = s) = some i) :
    (nhash_insert st s).2 = st := by
  rw [nhash_insert, if_neg hs, hf]

/-- nhash_insert preserves the invariant. -/
theorem HInv_insert (st : HState) (s : List Byte) (hinv : HInv st) :
    HInv (nhash_insert st s).2 := by
  by_cases hs : s = []
  · simpa [nhash_insert, hs] using hinv
  rcases hf : (st.nhtab (djbhash s % NHASH_NBUCKETS)).find?
      (fun i => st.store.getD i [] = s) with _ | i
  · obtain ⟨hstore, htab⟩ := nhash_insert_miss st s hs hf
    have hnot : s ∉ st.store := find_none_not_mem st s hinv hf
    refine ⟨?_, ?_, ?_⟩
    · rw [hstore]
      refine List.Nodup.append hinv.1 (List.nodup_singleton s) ?_
      intro a ha hb
      rw [List.mem_singleton] at hb
      subst hb
      exact hnot ha
    · intro h i hi
      rw [htab h] at hi
      rw [hstore]
      simp only [List.length_append, List.length_singleton]
      by_cases hh : h = djbhash s % NHASH_NBUCKETS
      · rw [if_pos hh, List.mem_cons] at hi
        rcases hi with hieq | hi
        · omega
        · have := hinv.2.1 _ _ hi; omega
      · rw [if_neg hh] at hi
        have := hinv.2.1 _ _ hi; omega
    · intro i hi
      rw [hstore] at hi ⊢
      rw [htab]
      simp only [List.length_append, List.length_singleton] at hi
      by_cases hlt : i < st.store.length
      · have hgd : (st.store ++ [s]).getD i [] = st.store.getD i [] := by
          rw [List.getD_eq_getElem?_getD, List.getD_eq_getElem?_getD,
            List.getElem?_append_left hlt]
        rw [hgd]
        have hm := hinv.2.2 i hlt
        by_cases hh : djbhash (st.store.getD i []) % NHASH_NBUCKETS =
            djbhash s % NHASH_NBUCKETS
        · rw [if_pos hh, List.mem_cons]
          exact Or.inr (hh ▸ hm)
        · rw [if_neg hh]
          exact hm
      · have hieq : i = st.store.length := by omega
        subst hieq
        have hgd : (st.store ++ [s]).getD st.store.length [] = s := by
          rw [List.getD_eq_getElem?_getD, List.getElem?_append_right (by omega)]
          simp
        rw [hgd, if_pos rfl]
        exact List.mem_cons_self _ _
  · rw [nhash_insert_hit st s i hs hf]
    exact hinv

/-- The invariant after interning any sequence of names into a fresh
hash. -/
theorem HInv_insertAll (names : List (List Byte)) :
    HInv (nhash_insertAll hinit names) := by
  have h : ∀ st, HInv st → HInv (nhash_insertAll st names) := by
    induction names with
    | nil => intro st h; exact h
    | cons n ns ih =>
      intro st h
      exact ih _ (HInv_insert st n h)
  exact h hinit HInv_hinit

/-- Insertion never removes a committed string. -/
theorem insert_store_mono (st : HState) (s x : List Byte)
    (hx : x ∈ st.store) : x ∈ (nhash_insert st s).2.store := by
  rw [nhash_insert]
  by_cases hs : s = []
  · simpa [hs] using hx
  rw [if_neg hs]
  rcases (st.nhtab (djbhash s % NHASH_NBUCKETS)).find?
      (fun i => st.store.getD i [] = s) with _ | i
  · simpa using Or.inl hx
  · exact hx

/-- A nonempty inserted string is committed afterwards. -/
theorem insert_store_self (st : HState) (s : List Byte) (hinv : HInv st)
    (hs : s ≠ []) : s ∈ (nhash_insert st s).2.store := by
  rw [nhash_insert, if_neg hs]
  rcases hf : (st.nhtab (djbhash s % NHASH_NBUCKETS)).find?
      (fun i => st.store.getD i [] = s) with _ | i
  · simp
  · have hmem := List.mem_of_find?_eq_some hf
    have hp := List.find?_some hf
    have hlt := hinv.2.1 _ _ hmem
    simp only [decide_eq_true_eq] at hp
    have : s ∈ st.store := by
      rw [← hp]
      rw [List.getD_eq_getElem?_getD, List.getElem?_eq_getElem hlt]
      exact List.getElem_mem hlt
    exact this

/-- A name already committed, or still to be interned, is committed after
the remaining insertions. -/
theorem insertAll_mem_aux (ns : List (List Byte)) (x : List Byte)
    (hxe : x ≠ []) :
    ∀ st, HInv st → (x ∈ st.store ∨ x ∈ ns) →
      x ∈ (nhash_insertAll st ns).store := by
  induction ns with
  | nil =>
    intro st hinv h
    rcases h with h | h
    · exact h
    · simp at h
  | cons n ns ih =>
    intro st hinv h
    show x ∈ (nhash_insertAll (nhash_insert st n).2 ns).store
    refine ih _ (HInv_insert st n hinv) ?_
    rcases h with h | h
    · exact Or.inl (insert_store_mono st n x h)
    · rcases List.mem_cons.mp h with h | h
      · subst h
        exact Or.inl (insert_store_self st x hinv hxe)
      · exact Or.inr h

/-- Every nonempty name interned during the parse is committed in the final
state. -/
theorem insertAll_mem (names : List (List Byte)) (x : List Byte)
    (hx : x ∈ names) (hxe : x ≠ []) :
    x ∈ (nhash_insertAll hinit names).store :=
  insertAll_mem_aux names x hxe hinit HInv_hinit (Or.inr hx)

/-- Under the invariant, looking up a committed string returns the pointer
of its unique store slot. -/
theorem nhash_lookup_mem (st : HState) (x : List Byte) (hinv : HInv st)
    (hxe : x ≠ []) (hx : x ∈ st.store) :
    ∃ i, i < st.store.length ∧ st.store.getD i [] = x ∧
      nhash_lookup st x = some (i + 1) := by
  obtain ⟨i, hi, hgi⟩ := List.mem_iff_getElem.mp hx
  have hgd : st.store.getD i [] = x := by
    rw [List.getD_eq_getElem?_getD, List.getElem?_eq_getElem hi]
    exact hgi
  have hbucket := hinv.2.2 i hi
  rw [hgd] at hbucket
  rcases hf : (st.nhtab (djbhash x % NHASH_NBUCKETS)).find?
      (fun i => st.store.getD i [] = x) with _ | j
  · have hcon := List.find?_eq_none.mp hf i hbucket
    simp only [decide_eq_true_eq] at hcon
    exact absurd hgd hcon
  · have hp := List.find?_some hf
    have hjmem := List.mem_of_find?_eq_some hf
    have hj := hinv.2.1 _ _ hjmem
    simp only [decide_eq_true_eq] at hp
    have hji : j = i := by
      have hgj : st.store.getD j [] = st.store[j] := by
        rw [List.getD_eq_getElem?_getD, List.getElem?_eq_getElem hj]
        rfl
      have h1 : st.store[j] = st.store[i] := by
        rw [← hgj, hp, hgi]
      exact (List.Nodup.getElem_inj_iff hinv.1).mp h1
    subst hji
    exact ⟨j, hj, hp, by rw [nhash_lookup, if_neg hxe, hf]⟩

/-- Lookup is sound: a nonzero pointer denotes the looked-up bytes. -/
theorem nhash_lookup_sound (st : HState) (x : List Byte) (i : Nat)
    (hxe : x ≠ []) (hl : nhash_lookup st x = some (i + 1)) :
    st.store.getD i [] = x := by
  rw [nhash_lookup, if_neg hxe] at hl
  rcases hf : (st.nhtab (djbhash x % NHASH_NBUCKETS)).find?
      (fun i => st.store.getD i [] = x) with _ | j
  · rw [hf] at hl; exact absurd hl (by simp)
  · rw [hf] at hl
    have hji : j = i := by
      have := Option.some.inj hl
      omega
    subst hji
    have hp := List.find?_some hf
    simpa using hp

/-- C4: interning invariant of the name hash.  Parse with the hash active
interns every object-member name via nhash_insert into a fresh hash; for
any two names x and y so interned, ltjson_get_hashstring (= nhash_lookup)
finds both, and returns the same pointer for them exactly when they are
byte-equal — member names compare equal as byte strings iff they are the
same pointer. -/
theorem C4_hash_interning (names : List (List Byte)) (x y : List Byte)
    (hx : x ∈ names) (hy : y ∈ names) :
    (nhash_lookup (nhash_insertAll hinit names) x).isSome ∧
    (nhash_lookup (nhash_insertAll hinit names) y).isSome ∧
    (nhash_lookup (nhash_insertAll hinit names) x =
      nhash_lookup (nhash_insertAll hinit names) y ↔ x = y) := by
  have hinv := HInv_insertAll names
  by_cases hxe : x = []
  · by_cases hye : y = []
    · subst hxe; subst hye
      simp [nhash_lookup]
    · obtain ⟨j, hj, hgj, hlj⟩ := nhash_lookup_mem _ y hinv hye
        (insertAll_mem names y hy hye)
      subst hxe
      rw [hlj]
      refine ⟨by simp [nhash_lookup], by simp, ?_⟩
      constructor
      · intro h
        rw [show nhash_lookup (nhash_insertAll hinit names) [] = some 0 from by
          simp [nhash_lookup]] at h
        exact absurd (Option.some.inj h) (by omega)
      · intro h; exact absurd h.symm hye
  · by_cases hye : y = []
    · obtain ⟨i, hi, hgi, hli⟩ := nhash_lookup_mem _ x hinv hxe
        (insertAll_mem names x hx hxe)
      subst hye
      rw [hli]
      refine ⟨by simp, by simp [nhash_lookup], ?_⟩
      constructor
      · intro h
        rw [show nhash_lookup (nhash_insertAll hinit names) [] = some 0 from by
          simp [nhash_lookup]] at h
        exact absurd (Option.some.inj h) (by omega)
      · intro h; exact absurd h hxe
    · obtain ⟨i, hi, hgi, hli⟩ := nhash_lookup_mem _ x hinv hxe
        (insertAll_mem names x hx hxe)
      obtain ⟨j, hj, hgj, hlj⟩ := nhash_lookup_mem _ y hinv hye
        (insertAll_mem names y hy hye)
      rw [hli, hlj]
      refine ⟨by simp, by simp, ?_⟩
      constructor
      · intro h
        have hij : i = j := by
          have := Option.some.inj h; omega
        rw [← hgi, ← hgj, hij]
      · intro h
        subst h
        have hij : i = j := by
          have h1 : (nhash_insertAll hinit names).store[i] =
              (nhash_insertAll hinit names).store[j] := by
            have hgi' : (nhash_insertAll hinit names).store.getD i [] =
                (nhash_insertAll hinit names).store[i] := by
              rw [List.getD_eq_getElem?_getD, List.getElem?_eq_getElem hi]
              rfl
            have hgj' : (nhash_insertAll hinit names).store.getD j [] =
                (nhash_insertAll hinit names).store[j] := by
              rw [List.getD_eq_getElem?_getD, List.getElem?_eq_getElem hj]
              rfl
            rw [← hgi', ← hgj', hgi, hgj]
          exact (List.Nodup.getElem_inj_iff hinv.1).mp h1
        rw [hij]

/-- Witness for C4 on the spec's running example: the member names of
test.txt's phone-number objects. "number" looked up twice gives one
pointer; "number" and "type" give different pointers. -/
theorem C4_hash_interning_witness :
    bs "number" ∈ [bs "type", bs "number", bs "type", bs "number"] ∧
    (nhash_lookup (nhash_insertAll hinit
        [bs "type", bs "number", bs "type", bs "number"]) (bs "number")).isSome ∧
    ¬(nhash_lookup (nhash_insertAll hinit
        [bs "type", bs "number", bs "type", bs "number"]) (bs "type") =
      nhash_lookup (nhash_insertAll hinit
        [bs "type", bs "number", bs "type", bs "number"]) (bs "number")) :=
  ⟨by decide,
   (C4_hash_interning [bs "type", bs "number", bs "type", bs "number"]
     (bs "number") (bs "number") (by decide) (by decide)).1,
   fun h => by
     have := (C4_hash_interning [bs "type", bs "number", bs "type", bs "number"]
       (bs "type") (bs "number") (by decide) (by decide)).2.2.mp h
     exact absurd this (by decide)⟩

/-! ## C6 — atomicity of addnode mutation on out-of-memory (src/ltutils.c)

ltjson_addnode_after and ltjson_addnode_under are thin wrappers that check
the tree handle and delegate to add_new_node (src/ltutils.c lines 518-636).
The tree is addressed functionally: a node is named by its path of child
indices from the root, and the call returns both its result and the tree as
left in memory, so that "the existing tree is left intact" is expressible.
get_new_node belongs to the 2016 generation's main file, which is not under
src/; it is modelled from spec section 7 — "out-of-memory during mutation
leaves the tree intact" — as an allocation oracle that on failure reports
out-of-memory without touching the tree (its 2015 namesake, src/ltjson.c
lines 228-299, destroys the context, but participates only in parsing,
where the spec calls out-of-memory fatal).  String-store and hash
interning for the new name are outside this claim and modelled as
succeeding. -/

/-- The error returns of add_new_node (EINVAL, ERANGE, EPERM, ENOMEM). -/
inductive AddErr
  | einval
  | erange
  | eperm
  | enomem
deriving DecidableEq, Repr

/-- Replace the child list of the container at a path of child indices. -/
def modifySub : JNode → List Nat → (List JNode → List JNode) → Option JNode
  | .obj nm ls, [], f => some (.obj nm (f ls))
  | .arr nm ls, [], f => some (.arr nm (f ls))
  | .scalar _ _, [], _ => none
  | n, i :: p, f =>
    match (JNode.subnodes n)[i]? with
    | none => none
    | some c =>
      match modifySub c p f with
      | none => none
      | some c' =>
        match n with
        | .obj nm ls => some (.obj nm (ls.set i c'))
        | .arr nm ls => some (.arr nm (ls.set i c'))
        | .scalar _ _ => none

/-- Splice a node into a sibling list directly after index k (newnode->next
= refnode->next; refnode->next = newnode, src/ltutils.c lines 620-626). -/
def insertAfterIdx (ls : List JNode) (k : Nat) (x : JNode) : List JNode :=
  ls.take (k + 1) ++ x :: ls.drop (k + 1)

def JNode.isContainerN : JNode → Bool
  | .obj _ _ => true
  | .arr _ _ => true
  | .scalar _ _ => false

def JNode.isObjN : JNode → Bool
  | .obj _ _ => true
  | _ => false

/-- The fresh node as filled in by add_new_node's switch (src/ltutils.c
lines 577-615), by LTJSON_NTYPE_* number: NULL 2, BOOL 3 (val.ll = 0),
ARRAY 4, OBJECT 5, FLOAT 6 (0.0), INTEGER 7 (0), STRING 8 (sval, with null
or empty sval giving the empty string).  A member of an object carries the
interned name; an array element carries none. -/
def mkNewNode (ntype : Nat) (name : Option (List Byte))
    (sval : Option (List Byte)) : JNode :=
  if ntype = 2 then .scalar name .null
  else if ntype = 3 then .scalar name (.bool false)
  else if ntype = 4 then .arr name []
  else if ntype = 5 then .obj name []
  else if ntype = 6 then .scalar name (.double 0)
  else if ntype = 7 then .scalar name (.int 0)
  else .scalar name (.str (match sval with | none => [] | some s => s))

/-- add_new_node (src/ltutils.c lines 518-636): reject a missing refnode or
an after-insert at the root (EINVAL), an out-of-range ntype (ERANGE), a
non-container insertion point (EPERM), an object member without a name
(EINVAL); then allocate the node — out of memory reports ENOMEM — fill it
in, and only then splice it into the sibling chain (after refnode, or at
the head of refnode's children).  Returns the result paired with the tree
as left in memory. -/
def add_new_node (tree : JNode) (rpath : List Nat) (new_is_after : Bool)
    (ntype : Nat) (name : Option (List Byte)) (sval : Option (List Byte))
    (alloc_ok : Bool) : Except AddErr JNode × JNode :=
  match nodeAt tree rpath with
  | none => (.error .einval, tree)
  | some refnode =>
    if new_is_after && rpath.isEmpty then (.error .einval, tree)
    else if ntype ≤ 1 || 8 < ntype then (.error .erange, tree)
    else
      match (if new_is_after then nodeAt tree rpath.dropLast
             else some refnode) with
      | none => (.error .einval, tree)
      | some oanode =>
        if oanode.isContainerN = false then (.error .eperm, tree)
        else if oanode.isObjN && name.isNone then (.error .einval, tree)
        else if alloc_ok = false then (.error .enomem, tree)
        else
          match (if new_is_after then
                   modifySub tree rpath.dropLast (fun ls =>
                     insertAfterIdx ls (rpath.getLastD 0)
                       (mkNewNode ntype
                         (if oanode.isObjN then name else none) sval))
                 else
                   modifySub tree rpath (fun ls =>
                     mkNewNode ntype
                       (if oanode.isObjN then name else none) sval :: ls)) with
          | none => (.error .einval, tree)
          | some t' => (.ok t', t')

/-- C6: mutation is atomic under out-of-memory.  With a failing node
allocation, add_new_node never returns success and always leaves the tree
exactly as it was — the splice is the last thing the call does; and
whenever the argument checks pass (refnode exists, an after-insert is not
at the root, ntype is in range, the insertion point is a container, and an
object member has a name), the reported error is precisely ENOMEM, again
with the tree intact. -/
theorem C6_addnode_oom_atomic (tree : JNode) (rpath : List Nat)
    (nia : Bool) (ntype : Nat) (nm sval : Option (List Byte)) :
    ((add_new_node tree rpath nia ntype nm sval false).1 ≠ .ok tree ∧
     (add_new_node tree rpath nia ntype nm sval false).2 = tree) ∧
    ((nodeAt tree rpath).isSome →
     (nia = true → rpath ≠ []) →
     2 ≤ ntype → ntype ≤ 8 →
     (∀ oa, (if nia then nodeAt tree rpath.dropLast else nodeAt tree rpath) =
        some oa →
       oa.isContainerN = true ∧ (oa.isObjN = true → nm.isSome)) →
     (if nia then nodeAt tree rpath.dropLast else nodeAt tree rpath).isSome →
     add_new_node tree rpath nia ntype nm sval false =
       (.error .enomem, tree)) := by
  constructor
  · rw [add_new_node]
    rcases nodeAt tree rpath with _ | refnode
    · exact ⟨by simp, rfl⟩
    · dsimp only
      split
      · exact ⟨by simp, rfl⟩
      split
      · exact ⟨by simp, rfl⟩
      rcases (if nia then nodeAt tree rpath.dropLast else some refnode) with
        _ | oanode
      · exact ⟨by simp, rfl⟩
      · dsimp only
        split
        · exact ⟨by simp, rfl⟩
        split
        · exact ⟨by simp, rfl⟩
        rw [if_pos rfl]
        exact ⟨by simp, rfl⟩
  · intro href hroot hlo hhi hoa hoas
    rw [add_new_node]
    rcases hr : nodeAt tree rpath with _ | refnode
    · rw [hr] at href; exact absurd href (by simp)
    dsimp only
    split
    · next hcond =>
        rw [Bool.and_eq_true] at hcond
        exact absurd (List.isEmpty_iff.mp hcond.2) (hroot hcond.1)
    split
    · next hcond =>
        rw [Bool.or_eq_true, decide_eq_true_eq, decide_eq_true_eq] at hcond
        omega
    have hsame : (if nia then nodeAt tree rpath.dropLast else some refnode) =
        (if nia then nodeAt tree rpath.dropLast else nodeAt tree rpath) := by
      cases nia
      · simp [hr]
      · rfl
    rw [hsame]
    rcases hoe : (if nia then nodeAt tree rpath.dropLast
        else nodeAt tree rpath) with _ | oanode
    · rw [hoe] at hoas; exact absurd hoas (by simp)
    obtain ⟨hcont, hobj⟩ := hoa oanode hoe
    dsimp only
    split
    · next hcond => rw [hcont] at hcond; cases hcond
    split
    · next hcond =>
        rw [Bool.and_eq_true] at hcond
        have hns := hobj hcond.1
        have hnn := hcond.2
        rcases nm with _ | v
        · exact absurd hns (by simp)
        · exact absurd hnn (by simp)
    simp

/-- Witness for C6: adding an integer member under the root of `{"a":1}`
with a failing allocation reports ENOMEM and leaves the tree untouched. -/
theorem C6_addnode_oom_atomic_witness :
    add_new_node (.obj none [.scalar (some (bs "a")) (.int 1)]) [] false 7
        (some (bs "n")) none false =
      (.error .enomem, .obj none [.scalar (some (bs "a")) (.int 1)]) :=
  (C6_addnode_oom_atomic (.obj none [.scalar (some (bs "a")) (.int 1)]) []
      false 7 (some (bs "n")) none).2
    (by rfl) (fun h => by cases h) (by omega) (by omega)
    (fun oa hoa => by
      rw [if_neg (by simp)] at hoa
      rw [show nodeAt (JNode.obj none [.scalar (some (bs "a")) (.int 1)]) [] =
        some (.obj none [.scalar (some (bs "a")) (.int 1)]) from rfl] at hoa
      cases hoa
      exact ⟨rfl, fun _ => rfl⟩)
    (by rfl)

/-! ## C10 — sstore_nadd failure atomicity (src/lttext.c lines 57-153)

The string store is a doubly linked list of blocks; the context pointer
names the current block, with `next` running toward older blocks and
`prev` toward blocks above the cursor (reused storage).  A block is its
allocation size `balloc`, its free space `bavail`, and the strings
committed in it.  sstore_nadd scans forward from the cursor for a block
with room; failing that, and if a store exists, it walks the `prev` chain
**clearing each block as it goes** (bavail = balloc, line 89) and moving
the context pointer up (line 97); only failing that too does it malloc a
fresh block, returning null with ENOMEM if malloc fails — with the
clearing and cursor movement already done.  `sizeof(struct sstore)` is 24
on LP64, so SSTORE_DEF_ALLOC = 2048 - 24. -/

structure SBlock where
  balloc : Nat
  bavail : Nat
  strs : List (List Byte)
deriving DecidableEq, Repr

/-- Clearing a block (src/lttext.c line 89): the free cursor returns to the
top, abandoning the block's contents. -/
def SBlock.clear (b : SBlock) : SBlock := ⟨b.balloc, b.balloc, []⟩

/-- Committing n+1 bytes to a block (src/lttext.c lines 145-151). -/
def SBlock.commit (b : SBlock) (str : List Byte) : SBlock :=
  ⟨b.balloc, b.bavail - (str.length + 1), b.strs ++ [str]⟩

/-- The store as seen from the context pointer: `prevs` is the prev chain
(nearest first), `curs` the current block followed by its next chain. -/
structure SStore where
  prevs : List SBlock
  curs : List SBlock
deriving DecidableEq, Repr

def SSTORE_MIN_ALLOC : Nat := 64
def SSTORE_DEF_ALLOC : Nat := 2048 - 24

/-- The back-up loop (src/lttext.c lines 85-98): walk up the prev chain,
clearing every block visited, until one fits; returns the visited blocks
(cleared, in next-direction order with the stopping block first), the
remaining prev chain, and whether a fitting block was found. -/
def backup_walk (prevs : List SBlock) (sneeds : Nat) :
    List SBlock × List SBlock × Bool :=
  match prevs with
  | [] => ([], [], false)
  | b :: rest =>
    if sneeds ≤ b.clear.bavail then ([b.clear], rest, true)
    else
      let w := backup_walk rest sneeds
      (w.1 ++ [b.clear], w.2.1, w.2.2)

/-- sstore_nadd (src/lttext.c lines 57-153) with an explicit malloc oracle:
scan forward for room; else back up the prev chain clearing blocks; else
compute the allocation size (the global total includes the 24-byte header;
floor SSTORE_MIN_ALLOC; at least sneeds) and malloc — on failure return
null with out-of-memory, on success chain the new block in at the head.
The committed string (or none) is returned with the store as left in
memory. -/
def sstore_nadd (store : SStore) (str : List Byte)
    (allocsize_global : Nat) (malloc_ok : Bool) :
    Option (List Byte) × SStore :=
  let sneeds := str.length + 1
  match store.curs.findIdx? (fun b => sneeds ≤ b.bavail) with
  | some i =>
      (some str,
       ⟨store.prevs,
        store.curs.take i ++
          (store.curs.getD i ⟨0, 0, []⟩).commit str :: store.curs.drop (i + 1)⟩)
  | none =>
    let w := if store.curs.isEmpty then ([], store.prevs, false)
             else backup_walk store.prevs sneeds
    if w.2.2 then
      match w.1 with
      | wb :: wrest => (some str, ⟨w.2.1, wb.commit str :: (wrest ++ store.curs)⟩)
      | [] => (none, store)
    else
      let allocsize0 := if allocsize_global = 0 then SSTORE_DEF_ALLOC
                        else max (allocsize_global - 24) SSTORE_MIN_ALLOC
      let allocsize := max allocsize0 sneeds
      if malloc_ok then
        (some str,
         ⟨w.2.1,
          (SBlock.mk allocsize allocsize []).commit str :: (w.1 ++ store.curs)⟩)
      else
        (none, ⟨w.2.1, w.1 ++ store.curs⟩)

/-- Counterexample to C10: the store holds a full current block and one
spent block above the cursor; the request fits nowhere even after
clearing, and malloc fails.  The call reports out-of-memory — but the
block above the cursor has been cleared (its string abandoned, its free
cursor reset from 2 to 10) and the context pointer has moved up to it, so
the store is observably changed. -/
theorem C10_counterexample_backup_clears :
    sstore_nadd ⟨[⟨10, 2, [bs "abcdef"]⟩], [⟨10, 0, [bs "x"]⟩]⟩
        (bs "aaaaaaaaaaaaaaaaaaaa") 0 false =
      (none, ⟨[], [⟨10, 10, []⟩, ⟨10, 0, [bs "x"]⟩]⟩) ∧
    (⟨[], [⟨10, 10, []⟩, ⟨10, 0, [bs "x"]⟩]⟩ : SStore) ≠
      ⟨[⟨10, 2, [bs "abcdef"]⟩], [⟨10, 0, [bs "x"]⟩]⟩ := by
  exact ⟨by rfl, by decide⟩

/-- The back-up loop clears and removes exactly a prefix of the prev
chain, reversing it onto the cursor side. -/
theorem backup_walk_spec (prevs : List SBlock) (sneeds : Nat) :
    ∃ k, k ≤ prevs.length ∧
      (backup_walk prevs sneeds).1 = ((prevs.take k).map SBlock.clear).reverse ∧
      (backup_walk prevs sneeds).2.1 = prevs.drop k := by
  induction prevs with
  | nil => exact ⟨0, by simp, by simp [backup_walk], by simp [backup_walk]⟩
  | cons b rest ih =>
    rw [backup_walk]
    by_cases hfit : sneeds ≤ b.clear.bavail
    · exact ⟨1, by simp, by simp [hfit], by simp [hfit]⟩
    · obtain ⟨k, hk, hw, hr⟩ := ih
      refine ⟨k + 1, by simpa using hk, ?_, ?_⟩
      · simp only [if_neg hfit, hw, List.take_succ_cons, List.map_cons,
          List.reverse_cons]
      · simp only [if_neg hfit, hr, List.drop_succ_cons]

/-- C10, amended: when sstore_nadd reports out-of-memory nothing has been
committed and no block added or removed — but the store is NOT left
unchanged: some prefix of the prev chain has been cleared (each such
block's free cursor reset to its full size, its strings abandoned) and
reversed onto the cursor side, where the context pointer now sits.  The
original claim's "no block's free cursor moves, no block is cleared"
fails whenever that prefix is nonempty. -/
theorem C10_nomem_state (store : SStore) (str : List Byte)
    (allocsize_global : Nat)
    (hfail : (sstore_nadd store str allocsize_global false).1 = none) :
    ∃ k, k ≤ store.prevs.length ∧
      (sstore_nadd store str allocsize_global false).2 =
        ⟨store.prevs.drop k,
         ((store.prevs.take k).map SBlock.clear).reverse ++ store.curs⟩ ∧
      (sstore_nadd store str allocsize_global false).2.prevs.length +
          (sstore_nadd store str allocsize_global false).2.curs.length =
        store.prevs.length + store.curs.length := by
  rcases hs : sstore_nadd store str allocsize_global false with ⟨res, st'⟩
  rw [hs] at hfail
  dsimp only at hfail ⊢
  subst hfail
  rw [sstore_nadd] at hs
  rcases hfi : store.curs.findIdx? (fun b => str.length + 1 ≤ b.bavail) with
    _ | i
  · rw [hfi] at hs
    dsimp only at hs
    by_cases hce : store.curs.isEmpty
    · rw [if_pos hce] at hs
      dsimp only at hs
      rw [if_neg (by simp)] at hs
      rw [if_neg (by simp)] at hs
      refine ⟨0, by omega, ?_, ?_⟩
      · rw [← (Prod.mk.injEq _ _ _ _).mp hs |>.2]
        simp
      · rw [← (Prod.mk.injEq _ _ _ _).mp hs |>.2]
        simp
    · rw [if_neg hce] at hs
      obtain ⟨k, hk, hw, hr⟩ := backup_walk_spec store.prevs (str.length + 1)
      rcases hfound : (backup_walk store.prevs (str.length + 1)).2.2 with _ | _
      · rw [hfound] at hs
        rw [if_neg (by simp)] at hs
        rw [if_neg (by simp)] at hs
        have hst : st' = ⟨(backup_walk store.prevs (str.length + 1)).2.1,
            (backup_walk store.prevs (str.length + 1)).1 ++ store.curs⟩ :=
          ((Prod.mk.injEq _ _ _ _).mp hs).2.symm
        refine ⟨k, hk, ?_, ?_⟩
        · rw [hst, hw, hr]
        · rw [hst, hw, hr]
          simp only [List.length_append, List.length_reverse, List.length_map,
            List.length_take, List.length_drop]
          omega
      · rw [hfound] at hs
        rw [if_pos rfl] at hs
        rcases hwl : (backup_walk store.prevs (str.length + 1)).1 with _ | ⟨wb, wrest⟩
        · rw [hwl] at hs
          have hst : st' = store := ((Prod.mk.injEq _ _ _ _).mp hs).2.symm
          refine ⟨0, by omega, ?_, ?_⟩
          · rw [hst]; simp
          · rw [hst]
        · rw [hwl] at hs
          exact absurd ((Prod.mk.injEq _ _ _ _).mp hs).1 (by simp)
  · rw [hfi] at hs
    exact absurd ((Prod.mk.injEq _ _ _ _).mp hs).1 (by simp)

/-- Witness for the amended C10 statement at the counterexample input:
k = 1 — the single prev block was cleared and moved below the context
pointer, block count preserved. -/
theorem C10_nomem_state_witness :
    ∃ k, k ≤ 1 ∧
      (sstore_nadd ⟨[⟨10, 2, [bs "abcdef"]⟩], [⟨10, 0, [bs "x"]⟩]⟩
          (bs "aaaaaaaaaaaaaaaaaaaa") 0 false).2 =
        ⟨([⟨10, 2, [bs "abcdef"]⟩] : List SBlock).drop k,
         ((([⟨10, 2, [bs "abcdef"]⟩] : List SBlock).take k).map
           SBlock.clear).reverse ++ [⟨10, 0, [bs "x"]⟩]⟩ ∧
      (sstore_nadd ⟨[⟨10, 2, [bs "abcdef"]⟩], [⟨10, 0, [bs "x"]⟩]⟩
          (bs "aaaaaaaaaaaaaaaaaaaa") 0 false).2.prevs.length +
        (sstore_nadd ⟨[⟨10, 2, [bs "abcdef"]⟩], [⟨10, 0, [bs "x"]⟩]⟩
          (bs "aaaaaaaaaaaaaaaaaaaa") 0 false).2.curs.length = 1 + 1 :=
  C10_nomem_state ⟨[⟨10, 2, [bs "abcdef"]⟩], [⟨10, 0, [bs "x"]⟩]⟩
    (bs "aaaaaaaaaaaaaaaaaaaa") 0 (by rfl)

end Ltjson

